import Mathlib

/-!
Verification development for the BlueMind financial dashboard's
reconciliation and calculation core.

The TypeScript source is shallowly embedded: JS numbers are modelled as
rationals (`ℚ`), JS strings as Lean `String`/`List Char`, JS `Date` values
as rational milliseconds since the Unix epoch (the runtime is assumed to
be in UTC, so `new Date(y, m, d)` and `new Date('YYYY-MM-DD')` agree on
midnight), and fallible operations return `Option`.  Library calls that
are not part of the repository (date-fns `parseISO`, the host's generic
`new Date(string)` parser) are taken as parameters of the generic date
parser, so theorems about it hold for every host behaviour.
-/

/-! ## JS character classes and string primitives -/

/-- Character class of the JS regex `\s` (and of `String.prototype.trim`). -/
def jsWsChar (c : Char) : Bool :=
  c.toNat = 32 || c.toNat = 9 || c.toNat = 10 || c.toNat = 11 || c.toNat = 12 ||
  c.toNat = 13 || c.toNat = 160 || c.toNat = 5760 ||
  (8192 ≤ c.toNat && c.toNat ≤ 8202) ||
  c.toNat = 8232 || c.toNat = 8233 || c.toNat = 8239 || c.toNat = 8287 ||
  c.toNat = 12288 || c.toNat = 65279

/-- Character class of the JS regex `\w`: ASCII letters, digits and `_`. -/
def wordChar (c : Char) : Bool :=
  (97 ≤ c.toNat && c.toNat ≤ 122) || (65 ≤ c.toNat && c.toNat ≤ 90) ||
  (48 ≤ c.toNat && c.toNat ≤ 57) || c.toNat = 95

/-- ASCII decimal digit. -/
def digitChar (c : Char) : Bool := 48 ≤ c.toNat && c.toNat ≤ 57

/-- ASCII letter, the class `[A-Za-z]`. -/
def alphaChar (c : Char) : Bool :=
  (97 ≤ c.toNat && c.toNat ≤ 122) || (65 ≤ c.toNat && c.toNat ≤ 90)

/-- ASCII model of JS `toLowerCase` on a single character. -/
def lowerChar (c : Char) : Char :=
  if 65 ≤ c.toNat ∧ c.toNat ≤ 90 then Char.ofNat (c.toNat + 32) else c

/-- Character-wise lower-casing of a character list. -/
def lowerList (l : List Char) : List Char := l.map lowerChar

/-- JS `String.prototype.trim` on a character list (both ends). -/
def jsTrim (l : List Char) : List Char :=
  ((l.dropWhile jsWsChar).reverse.dropWhile jsWsChar).reverse

/-- JS `String.prototype.trim` on a `String`. -/
def jsTrimStr (s : String) : String := ⟨jsTrim s.data⟩

/-- Decides whether `needle` occurs as a contiguous substring of `haystack`,
modelling JS `String.prototype.includes`. -/
def containsSub (needle : List Char) : List Char → Bool
  | [] => needle.isEmpty
  | c :: rest => needle.isPrefixOf (c :: rest) || containsSub needle rest

/-- JS `String.prototype.startsWith` on lists. -/
def startsWithL (p l : List Char) : Bool := p.isPrefixOf l

/-- Splits a character list at every occurrence of `sep`,
modelling JS `String.prototype.split(sep)`. -/
def splitOnChar (sep : Char) : List Char → List (List Char)
  | [] => [[]]
  | c :: rest =>
    let r := splitOnChar sep rest
    if c = sep then [] :: r
    else match r with
      | [] => [[c]]
      | h :: t => (c :: h) :: t

/-- JS `Math.round`: round half toward positive infinity. -/
def jsRound (q : ℚ) : ℚ := Rat.divInt ⌊q + 1/2⌋ 1

/-! ## Name normalization and the employee mapping table
(source: `constants/employeeMapping.ts`, `constants/businessRules.ts`) -/

/-- Lower-case, trim, strip characters outside `[\w\s,]`, collapse whitespace
runs to single spaces, and normalize comma spacing to `", "`.
Embeds `normalizeName` (the chained regex replaces run in this order). -/
def stripKeep (l : List Char) : List Char :=
  l.filter fun c => wordChar c || jsWsChar c || c = ','

/-- Worker for `wsCollapse`; the flag records whether the scan is inside a
whitespace run whose single replacement space was already emitted. -/
def wsCollapseAux : Bool → List Char → List Char
  | _, [] => []
  | inRun, c :: rest =>
    if jsWsChar c then
      if inRun then wsCollapseAux true rest
      else ' ' :: wsCollapseAux true rest
    else c :: wsCollapseAux false rest

/-- The JS regex replace `\s+` → `' '`: every whitespace run becomes one space. -/
def wsCollapse (l : List Char) : List Char := wsCollapseAux false l

/-- Worker for `commaSpace`; the flag records whether the scan is inside the
`\s*` tail of a comma match, whose characters are consumed. -/
def commaSpaceAux : Bool → List Char → List Char
  | _, [] => []
  | skip, c :: rest =>
    if c = ',' then ',' :: ' ' :: commaSpaceAux true rest
    else if skip && jsWsChar c then commaSpaceAux true rest
    else c :: commaSpaceAux false rest

/-- The JS regex replace `,\s*` → `', '`: each comma (plus following
whitespace) becomes a comma and one space. -/
def commaSpace (l : List Char) : List Char := commaSpaceAux false l

/-- Embeds `normalizeName` from `employeeMapping.ts`: lower-case, trim, strip
`[^\w\s,]`, collapse `\s+`, normalize `,\s*` to `", "`.  Empty input maps to
itself (the `if (!name) return ''` guard). -/
def normalizeName (s : String) : String :=
  ⟨commaSpace (wsCollapse (stripKeep (jsTrim (lowerList s.data))))⟩

/-- The exact payroll-name → billing-name mapping table
`EMPLOYEE_NAME_MAPPING` from `businessRules.ts`. -/
def EMPLOYEE_NAME_MAPPING : List (String × String) :=
  [("Francis, Keeaira", "Francis, Keearia"),
   ("Gallegos Labrado, Maritza", "Labrado, Maritza Gallegos"),
   ("Gallegos Labrado, Marit", "Labrado, Maritza Gallegos"),
   ("Wilcox, Breann R", "Wilcox, BreAnn"),
   ("Clegg, Charmisha M", "Clegg, Charmisha"),
   ("Hammound, Tarek", "Hammoud, Ricky"),
   ("Mihai, Bryan", "Mihai, Brian"),
   ("Destevens, Kaileigh", "DeStevens, Kaileigh"),
   ("deStevens, Kaileigh", "DeStevens, Kaileigh"),
   ("El Aroud, Mariam", "ElAroud, Mariam"),
   ("Alkhalidi, Zahraa J", "Alkhalidi, Zahraa"),
   ("Aqrabawi, Zakia D", "Aqrabawi, Zakia"),
   ("Mazloum, Mohamdali", "Mazloum, Moe"),
   ("Smith, Anaily A", "Smith, Anaily")]

/-- Embeds `applyExactMapping`: look the raw name up in the table and fall
back to the name itself. -/
def applyExactMapping (name : String) : String :=
  match EMPLOYEE_NAME_MAPPING.find? (fun p => p.1 = name) with
  | some p => p.2
  | none => name

/-- The static HR staff list `HR_STAFF` from `businessRules.ts`. -/
def HR_STAFF : List String :=
  ["Seifeddine, Malak", "Hammoud, Ricky", "Elmoghrabi, Mariam",
   "Mazloum, Moe", "Karnib, Malik", "Clegg, Charmisha", "Hancox, Maria C"]

/-- Embeds `isHRStaff`: compare normalized names against the HR list. -/
def isHRStaff (name : String) : Bool :=
  HR_STAFF.any fun hrName => normalizeName hrName = normalizeName name

/-! ## Calendar arithmetic: JS `Date` modelled as rational milliseconds
since the Unix epoch (UTC runtime assumed). -/

/-- Days since 1970-01-01 of the civil date `(y, m, d)` with `m ∈ [1,12]`
and arbitrary day `d` (day overflow rolls over exactly as in JS `Date`). -/
def daysFromCivil (y m d : ℤ) : ℤ :=
  let y' := y - (if m ≤ 2 then 1 else 0)
  let era := Int.fdiv y' 400
  let yoe := y' - era * 400
  let mp := Int.emod (m + 9) 12
  let doy := Int.fdiv (153 * mp + 2) 5 + d - 1
  let doe := yoe * 365 + Int.fdiv yoe 4 - Int.fdiv yoe 100 + doy
  era * 146097 + doe - 719468

/-- Civil year of the day `z` (days since 1970-01-01). -/
def yearOfDays (z : ℤ) : ℤ :=
  let z' := z + 719468
  let era := Int.fdiv z' 146097
  let doe := z' - era * 146097
  let yoe := Int.fdiv (doe - Int.fdiv doe 1461 + Int.fdiv doe 36524 - Int.fdiv doe 146096) 365
  let y := yoe + era * 400
  let doy := doe - (365 * yoe + Int.fdiv yoe 4 - Int.fdiv yoe 100)
  let mp := Int.fdiv (5 * doy + 2) 153
  let m := mp + (if mp < 10 then 3 else -9)
  y + (if m ≤ 2 then 1 else 0)

/-- Embeds the JS constructor `new Date(year, monthIndex, day)` at local
midnight: month overflow and day overflow roll over; two-digit years map
to `1900 + year`.  The result is in milliseconds. -/
def mkDateMs (year monthIdx day : ℤ) : ℚ :=
  let y := if 0 ≤ year ∧ year ≤ 99 then year + 1900 else year
  Rat.divInt
    (daysFromCivil (y + Int.fdiv monthIdx 12) (Int.emod monthIdx 12 + 1) day *
      86400000) 1

/-- Embeds `new Date('YYYY-MM-DD')` (UTC midnight) for the fixed window
bounds that appear as literals in the source. -/
def dateLiteralMs (y m d : ℤ) : ℚ := Rat.divInt (daysFromCivil y m d * 86400000) 1

/-- JS `Date.prototype.getFullYear` of a millisecond timestamp. -/
def getFullYear (ms : ℚ) : ℤ := yearOfDays ⌊ms / 86400000⌋

/-! ## JS `parseFloat` (decimal prefix parsing, commas not handled) -/

/-- Parses an optional exponent suffix `e`/`E` sign digits; when the
exponent has no digits it is ignored, as JS does. -/
def parseExponent (l : List Char) : ℤ :=
  match l with
  | 'e' :: rest | 'E' :: rest =>
    let (sgn, rest') :=
      match rest with
      | '+' :: r => ((1 : ℤ), r)
      | '-' :: r => ((-1 : ℤ), r)
      | r => ((1 : ℤ), r)
    let ds := rest'.takeWhile digitChar
    if ds.isEmpty then 0 else sgn * (ds.foldl (fun a c => a * 10 + (c.toNat - '0'.toNat : ℤ)) 0)
  | _ => 0

/-- Digit list to natural value. -/
def digitsVal (l : List Char) : ℤ :=
  l.foldl (fun a c => a * 10 + (c.toNat - '0'.toNat : ℤ)) 0

/-- Embeds JS `parseFloat`: skip leading whitespace, optional sign, then the
longest valid decimal-literal prefix; `none` models `NaN`.  (`Infinity`
literals are outside the rational model and yield `none`.) -/
def jsParseFloat (s : String) : Option ℚ :=
  let l := s.data.dropWhile jsWsChar
  let (sgn, l1) : ℚ × List Char :=
    match l with
    | '+' :: r => (1, r)
    | '-' :: r => (-1, r)
    | r => (1, r)
  let intDs := l1.takeWhile digitChar
  let l2 := l1.drop intDs.length
  let (fracDs, l3) :=
    match l2 with
    | '.' :: r => (r.takeWhile digitChar, (r.dropWhile digitChar : List Char))
    | _ => ([], l2)
  if intDs.isEmpty ∧ fracDs.isEmpty then none
  else
    let e := parseExponent l3
    let mantissa : ℚ :=
      Rat.divInt (digitsVal intDs) 1 + Rat.divInt (digitsVal fracDs) 1 / (10 : ℚ) ^ fracDs.length
    some (sgn * mantissa * (10 : ℚ) ^ e)

/-- Removes every comma, the JS `replace(/,/g, \x27\x27)`. -/
def stripCommas (s : String) : String := ⟨s.data.filter (· ≠ ',')⟩

/-! ## `parseAccountingNumber` (source: `utils/calculationEngine.ts`) -/

/-- Embeds `parseAccountingNumber`: empty input is 0; `(...)` means negated
contents; a leading `-` negates; commas are stripped; an unparsable
remainder (JS `NaN`, via `|| 0`) is 0.  Total by construction: the source
never throws. -/
def parseAccountingNumber (value : String) : ℚ :=
  if value = "" then 0
  else
    let str := jsTrimStr value
    if str.data.take 1 = ['('] ∧ str.data.getLast? = some ')' then
      let numberStr := stripCommas ⟨(str.data.drop 1).dropLast⟩
      match jsParseFloat numberStr with
      | some q => if -q = 0 then 0 else -q
      | none => 0
    else if str.data.take 1 = ['-'] then
      let numberStr := stripCommas ⟨str.data.drop 1⟩
      match jsParseFloat numberStr with
      | some q => if -q = 0 then 0 else -q
      | none => 0
    else
      let numberStr := stripCommas str
      match jsParseFloat numberStr with
      | some q => if q = 0 then 0 else q
      | none => 0

/-! ## `parseFlexibleDate` (source: `constants/dateRanges.ts`) -/

/-- A character the group `[A-Za-z\s]` of the suffix-stripping regex accepts. -/
def ambChar (c : Char) : Bool := alphaChar c || jsWsChar c

/-- JS line terminators, which `.` does not match and `$` (without `m`)
only follows at end of input. -/
def lineTermChar (c : Char) : Bool :=
  c.toNat = 10 || c.toNat = 13 || c.toNat = 8232 || c.toNat = 8233

/-- Whether the regex `\s*-\s*(Prior|Void|[A-Za-z\s]+).*$` matches right at a
hyphen whose remaining input is `rest`: the next character must be a letter
or whitespace, and past the letter/whitespace run no line terminator may
remain (otherwise `.*$` cannot reach the end of input). -/
def hyphenMatch (rest : List Char) : Bool :=
  match rest with
  | [] => false
  | c :: _ => ambChar c && (rest.dropWhile ambChar).all fun c => !lineTermChar c

/-- Scans for the leftmost match of `\s*-\s*(Prior|Void|[A-Za-z\s]+).*$` and
deletes from the match start (the whitespace run just before the hyphen) to
the end, accumulating the kept prefix in reverse. -/
def cleanAux (acc : List Char) : List Char → List Char
  | [] => acc.reverse
  | c :: rest =>
    if c = '-' ∧ hyphenMatch rest then (acc.dropWhile jsWsChar).reverse
    else cleanAux (c :: acc) rest

/-- Embeds the cleaning step of `parseFlexibleDate`: trim, then strip a
trailing annotation such as `" - Prior"` or `" - Void"`. -/
def cleanDateStr (s : String) : String := ⟨cleanAux [] (jsTrim s.data)⟩

/-- Embeds the regex branch `^(\d{1,2})\/(\d{1,2})\/(\d{4})$` of
`parseFlexibleDate`: month/day/year. -/
def slashParse (s : String) : Option ℚ :=
  let l := s.data
  let d1 := l.takeWhile digitChar
  let l1 := l.drop d1.length
  match l1 with
  | '/' :: r1 =>
    let d2 := r1.takeWhile digitChar
    let l2 := r1.drop d2.length
    match l2 with
    | '/' :: r2 =>
      let d3 := r2.takeWhile digitChar
      if (d1.length = 1 ∨ d1.length = 2) ∧ (d2.length = 1 ∨ d2.length = 2) ∧
          d3.length = 4 ∧ r2.drop d3.length = [] then
        some (mkDateMs (digitsVal d3) (digitsVal d1 - 1) (digitsVal d2))
      else none
    | _ => none
  | _ => none

/-- Embeds the regex branch `^(\d{4})-(\d{1,2})-(\d{1,2})$` of
`parseFlexibleDate`: year-month-day. -/
def isoParse (s : String) : Option ℚ :=
  let l := s.data
  let d1 := l.takeWhile digitChar
  let l1 := l.drop d1.length
  match l1 with
  | '-' :: r1 =>
    let d2 := r1.takeWhile digitChar
    let l2 := r1.drop d2.length
    match l2 with
    | '-' :: r2 =>
      let d3 := r2.takeWhile digitChar
      if d1.length = 4 ∧ (d2.length = 1 ∨ d2.length = 2) ∧
          (d3.length = 1 ∨ d3.length = 2) ∧ r2.drop d3.length = [] then
        some (mkDateMs (digitsVal d1) (digitsVal d2 - 1) (digitsVal d3))
      else none
    | _ => none
  | _ => none

/-- Embeds the Excel-serial branch of `parseFlexibleDate`: a numeric value
strictly between 25000 and 60000 is taken as days and shifted by 25569. -/
def serialParse (s : String) : Option ℚ :=
  match jsParseFloat s with
  | some q => if 25000 < q ∧ q < 60000 then some ((q - 25569) * 86400000) else none
  | none => none

/-- Embeds `parseFlexibleDate`, parameterized by the two library parsers the
source calls but does not define: date-fns `parseISO` (`pISO`) and the
host's generic `new Date(string)` (`pDirect`).  Attempts run in source
order on the cleaned string; the generic parse is only accepted when its
year is strictly between 2020 and 2030. -/
def parseFlexibleDateGen (pISO pDirect : String → Option ℚ) (s : String) : Option ℚ :=
  if s = "" then none
  else
    let clean := cleanDateStr s
    match slashParse clean with
    | some d => some d
    | none =>
      match isoParse clean with
      | some d => some d
      | none =>
        match serialParse clean with
        | some d => some d
        | none =>
          match pISO clean with
          | some d => some d
          | none =>
            match pDirect clean with
            | some d =>
              if 2020 < getFullYear d ∧ getFullYear d < 2030 then some d else none
            | none => none

/-- Model of date-fns `parseISO` used when the engine runs: plain
`YYYY-MM-DD` dates are already consumed by `isoParse`, so the model only
repeats that behaviour (full ISO datetimes are out of scope for the
claims, which never reach this attempt). -/
def parseISOModel (s : String) : Option ℚ := isoParse s

/-- Model of the host's generic `new Date(string)` parse: accepts what the
two pattern branches accept, otherwise gives up. -/
def jsDateParseModel (s : String) : Option ℚ :=
  match isoParse s with
  | some d => some d
  | none => slashParse s

/-- The concrete `parseFlexibleDate` the calculation engine calls. -/
def parseFlexibleDate (s : String) : Option ℚ :=
  parseFlexibleDateGen parseISOModel jsDateParseModel s

/-! ## Data model (source: `types/*.types.ts`), restricted to the fields
the calculation engine reads -/

/-- A billing row: technician name, session date string, service code,
hours and billed price. -/
structure BillingRecord where
  techName : String
  sessionDate : String
  code : ℤ
  hours : ℚ
  price : ℚ
deriving DecidableEq, Repr

/-- A payroll row: employee name, check date string, hours, the raw
`Total Expenses` cell (parsed by `parseAccountingNumber`), department. -/
structure PayrollRecord where
  name : String
  checkDate : String
  hours : ℚ
  totalExpenses : String
  department : Option String
deriving DecidableEq, Repr

/-- Billing input bundle as produced by file ingestion. -/
structure ProcessedBillingData where
  records : List BillingRecord
  totalRevenue : ℚ
deriving DecidableEq, Repr

/-- Payroll input bundle as produced by file ingestion. -/
structure ProcessedPayrollData where
  records : List PayrollRecord
  totalPayrollCost : ℚ
deriving DecidableEq, Repr

/-- Role classification result. -/
inductive Role where
  | TECH
  | BCBA
deriving DecidableEq, Repr, Inhabited

/-- Performance tier buckets. -/
inductive Tier where
  | excellent
  | good
  | needsImprovement
  | critical
deriving DecidableEq, Repr, Inhabited

/-- Output financial metrics bundle of `calculateFinancialMetrics`. -/
structure FinancialMetrics where
  totalRevenue : ℚ
  totalPayrollCost : ℚ
  grossProfit : ℚ
  profitMargin : ℚ
  billableStaffCost : ℚ
  hrCost : ℚ
  profitMarginVsBillableStaff : ℚ
  netProfit : ℚ
  utilizationRate : ℚ
  revenuePerBillableHour : ℚ
  nonBillableCost : ℚ
  comprehensiveProfit : ℚ
  comprehensiveProfitMargin : ℚ
  expectedRevenue : ℚ
  expectedUtilizationRate : ℚ
  expectedNonBillableCost : ℚ
  expectedProfitMargin : ℚ
deriving DecidableEq, Repr

/-- Per-employee metric record of `analyzeEmployeePerformance`. -/
structure EmployeeMetric where
  name : String
  payrollName : String
  billingName : String
  utilizationRate : ℚ
  billableHours : ℚ
  payrollHours : ℚ
  nonBillableHours : ℚ
  revenue : ℚ
  payrollCost : ℚ
  revenuePerHour : ℚ
  profitMargin : ℚ
  isMatched : Bool
  performanceTier : Tier
  potentialRevenue : ℚ
  isHRStaff : Bool
  role : Role
  department : Option String
deriving DecidableEq, Repr, Inhabited

/-! ## Business constants (source: `constants/businessRules.ts`) -/

/-- Utilization benchmark constant `UTILIZATION_BENCHMARK`. -/
def UTILIZATION_BENCHMARK : ℚ := 90

/-- Technician service codes, `EMPLOYEE_ROLES.TECH.serviceCodes`. -/
def TECH_SERVICE_CODES : List ℤ := [97153]

/-- BCBA service codes, `EMPLOYEE_ROLES.BCBA.serviceCodes`. -/
def BCBA_SERVICE_CODES : List ℤ := [97155, 97156, 97151]

/-- Expected aggregate results `EXPECTED_RESULTS` used for validation. -/
def EXPECTED_REVENUE : ℚ := 773034.41

/-- Expected utilization rate from `EXPECTED_RESULTS`. -/
def EXPECTED_UTILIZATION_RATE : ℚ := 85.7

/-- Expected profit margin from `EXPECTED_RESULTS`. -/
def EXPECTED_PROFIT_MARGIN : ℚ := 40.9

/-! ## Calculation engine (source: `utils/calculationEngine.ts`) -/

/-- Sums a rational-valued projection over a list, the lodash `sumBy`. -/
def sumBy (f : α → ℚ) (l : List α) : ℚ := (l.map f).sum

/-- The thirteen check-date prefixes accepted for real (void-containing)
payroll data in `filterQ2PayrollRecords`. -/
def validDatePatterns : List String :=
  ["04/18/2025", "04/25/2025",
   "05/02/2025", "05/09/2025", "05/16/2025", "05/23/2025", "05/30/2025",
   "06/06/2025", "06/13/2025", "06/20/2025", "06/27/2025",
   "07/03/2025", "07/11/2025"]

/-- Embeds `filterQ2PayrollRecords`: when any check date mentions `Void`,
keep rows whose trimmed check date starts with one of the fixed patterns;
otherwise keep rows whose flexibly parsed check date lies in the inclusive
window 2025-04-18 .. 2025-07-11. -/
def filterQ2PayrollRecords (payrollRecords : List PayrollRecord) : List PayrollRecord :=
  let hasVoidEntries := payrollRecords.any fun r =>
    !r.checkDate.isEmpty && containsSub "Void".data r.checkDate.data
  if hasVoidEntries then
    payrollRecords.filter fun r =>
      validDatePatterns.any fun pat => startsWithL pat.data (jsTrim r.checkDate.data)
  else
    payrollRecords.filter fun r =>
      match parseFlexibleDate r.checkDate with
      | none => false
      | some d => dateLiteralMs 2025 4 18 ≤ d ∧ d ≤ dateLiteralMs 2025 7 11

/-- Embeds `classifyEmployeeRole`: no rows defaults to TECH; only BCBA codes
gives BCBA; only TECH codes gives TECH; mixed codes go to the majority,
ties to TECH. -/
def classifyEmployeeRole (billingRecords : List BillingRecord) : Role :=
  if billingRecords.isEmpty then Role.TECH
  else
    let serviceCodes := billingRecords.map (·.code)
    let uniqueCodes := serviceCodes.dedup
    let hasBCBACodes := uniqueCodes.any fun c => BCBA_SERVICE_CODES.contains c
    let hasTechCodes := uniqueCodes.any fun c => TECH_SERVICE_CODES.contains c
    if hasBCBACodes && !hasTechCodes then Role.BCBA
    else if hasTechCodes && !hasBCBACodes then Role.TECH
    else
      let bcbaCodeCount := (serviceCodes.filter fun c => BCBA_SERVICE_CODES.contains c).length
      let techCodeCount := (serviceCodes.filter fun c => TECH_SERVICE_CODES.contains c).length
      if techCodeCount < bcbaCodeCount then Role.BCBA else Role.TECH

/-- Embeds `separatePayrollByType`: Q2-filter, then split on `isHRStaff`
(order preserved, as the source's forEach pushes do). -/
def separatePayrollByType (payrollRecords : List PayrollRecord) :
    List PayrollRecord × List PayrollRecord :=
  let q2Records := filterQ2PayrollRecords payrollRecords
  (q2Records.filter fun r => !isHRStaff r.name, q2Records.filter fun r => isHRStaff r.name)

/-- Embeds `calculateTotalBillableHours`: sum the hours of billing rows whose
session date parses and falls in the inclusive window
2025-03-30 .. 2025-06-29 (the literals inlined in the source). -/
def calculateTotalBillableHours (billingData : ProcessedBillingData) : ℚ :=
  let q2BillingRecords := billingData.records.filter fun r =>
    match parseFlexibleDate r.sessionDate with
    | none => false
    | some d => dateLiteralMs 2025 3 30 ≤ d ∧ d ≤ dateLiteralMs 2025 6 29
  sumBy (·.hours) q2BillingRecords

/-- Embeds `calculateFinancialMetrics`: amounts-based financial metrics.
Note `nonBillableCost` is the literal 0 and `comprehensiveProfitMargin`
aliases `profitMargin`, exactly as the source returns them. -/
def calculateFinancialMetrics (billingData : ProcessedBillingData)
    (payrollData : ProcessedPayrollData) : FinancialMetrics :=
  let sep := separatePayrollByType payrollData.records
  let billableRecords := sep.1
  let hrRecords := sep.2
  let totalRevenue := billingData.totalRevenue
  let totalStaffCost := payrollData.totalPayrollCost
  let hrCost := sumBy (fun r => parseAccountingNumber r.totalExpenses) hrRecords
  let billableStaffCost := sumBy (fun r => parseAccountingNumber r.totalExpenses) billableRecords
  let grossProfit := totalRevenue - totalStaffCost
  let profitMargin := if 0 < totalRevenue then grossProfit / totalRevenue * 100 else 0
  let profitExcludingHR := totalRevenue - billableStaffCost
  let profitMarginExcludingHR :=
    if 0 < totalRevenue then profitExcludingHR / totalRevenue * 100 else 0
  let totalBillableHours := calculateTotalBillableHours billingData
  let billableStaffHours := sumBy (·.hours) billableRecords
  let utilizationRate :=
    if 0 < billableStaffHours then totalBillableHours / billableStaffHours * 100 else 0
  let revenuePerBillableHour :=
    if 0 < totalBillableHours then totalRevenue / totalBillableHours else 0
  { totalRevenue := totalRevenue
    totalPayrollCost := totalStaffCost
    grossProfit := grossProfit
    profitMargin := profitMargin
    billableStaffCost := billableStaffCost
    hrCost := hrCost
    profitMarginVsBillableStaff := profitMarginExcludingHR
    netProfit := profitExcludingHR
    utilizationRate := utilizationRate
    revenuePerBillableHour := revenuePerBillableHour
    nonBillableCost := 0
    comprehensiveProfit := grossProfit
    comprehensiveProfitMargin := profitMargin
    expectedRevenue := EXPECTED_REVENUE
    expectedUtilizationRate := EXPECTED_UTILIZATION_RATE
    expectedNonBillableCost := 0
    expectedProfitMargin := EXPECTED_PROFIT_MARGIN }

/-- The billable-staff payroll hours the aggregate utilization rate divides
by (the `billableStaffHours` intermediate of `calculateFinancialMetrics`). -/
def billableStaffHoursOf (payrollData : ProcessedPayrollData) : ℚ :=
  sumBy (·.hours) (separatePayrollByType payrollData.records).1

/-! ## Per-employee analysis (source: `analyzeEmployeePerformance`) -/

/-- Appends a record to its group, creating the group at the end on first
sight; mirrors JS object insertion-order semantics. -/
def addToGroup (g : List (String × List α)) (k : String) (r : α) :
    List (String × List α) :=
  match g with
  | [] => [(k, [r])]
  | (k', rs) :: t => if k' = k then (k', rs ++ [r]) :: t else (k', rs) :: addToGroup t k r

/-- Groups a list by a string key, keys in first-insertion order. -/
def groupRecords (key : α → String) (l : List α) : List (String × List α) :=
  l.foldl (fun acc r => addToGroup acc (key r) r) []

/-- Looks a key up in a grouping, defaulting to the empty group
(the source's `grouped[name] || []`). -/
def lookupGroup (g : List (String × List α)) (k : String) : List α :=
  match g.find? (fun p => p.1 = k) with
  | some p => p.2
  | none => []

/-- Embeds `groupBillingByEmployee`: group billing rows by the
exact-mapped technician name. -/
def groupBillingByEmployee (billingRecords : List BillingRecord) :
    List (String × List BillingRecord) :=
  groupRecords (fun r => applyExactMapping r.techName) billingRecords

/-- Embeds `groupPayrollByEmployee`: group payroll rows by the exact-mapped
employee name. -/
def groupPayrollByEmployee (payrollRecords : List PayrollRecord) :
    List (String × List PayrollRecord) :=
  groupRecords (fun r => applyExactMapping r.name) payrollRecords

/-- Insertion-order deduplicating union of two key lists, the JS
`new Set([...keysA, ...keysB])`. -/
def orderedUnion (a b : List String) : List String :=
  (a ++ b).foldl (fun acc k => if acc.contains k then acc else acc ++ [k]) []

/-- Embeds `findOriginalPayrollName`: first payroll row whose mapped name is
the billing name. -/
def findOriginalPayrollName (billingName : String)
    (payrollRecords : List PayrollRecord) : Option String :=
  match payrollRecords.find? (fun r => applyExactMapping r.name = billingName) with
  | some r => some r.name
  | none => none

/-- Embeds `getPerformanceTier` (Technicians, by utilization). -/
def getPerformanceTier (utilizationRate : ℚ) : Tier :=
  if 90 ≤ utilizationRate then Tier.excellent
  else if 80 ≤ utilizationRate then Tier.good
  else if 50 ≤ utilizationRate then Tier.needsImprovement
  else Tier.critical

/-- Embeds `getBCBAPerformanceTier` (BCBAs, by profit margin). -/
def getBCBAPerformanceTier (profitMargin : ℚ) : Tier :=
  if 40 ≤ profitMargin then Tier.excellent
  else if 30 ≤ profitMargin then Tier.good
  else if 20 ≤ profitMargin then Tier.needsImprovement
  else Tier.critical

/-- Builds one `EmployeeMetric`, the body of the `allEmployees.forEach` in
`analyzeEmployeePerformance`. -/
def mkEmployeeMetric (billingRecords : List BillingRecord)
    (payrollRecords : List PayrollRecord) (allPayroll : List PayrollRecord)
    (employeeName : String) : EmployeeMetric :=
  let role := classifyEmployeeRole billingRecords
  let billableHours := sumBy (·.hours) billingRecords
  let revenue := sumBy (·.price) billingRecords
  let payrollHours := sumBy (·.hours) payrollRecords
  let payrollCost := sumBy (fun r => parseAccountingNumber r.totalExpenses) payrollRecords
  let nonBillableHours := max 0 (payrollHours - billableHours)
  let utilizationRate := if 0 < payrollHours then billableHours / payrollHours * 100 else 0
  let revenuePerHour := if 0 < billableHours then revenue / billableHours else 0
  let profitMargin :=
    if 0 < revenue then (revenue - payrollCost) / revenue * 100
    else if 0 < payrollCost then -100 else 0
  let performanceTier :=
    match role with
    | Role.TECH => getPerformanceTier utilizationRate
    | Role.BCBA => getBCBAPerformanceTier profitMargin
  let potentialRevenue :=
    match role with
    | Role.TECH =>
      let potentialAdditionalHours :=
        max 0 (payrollHours * UTILIZATION_BENCHMARK / 100 - billableHours)
      revenue + potentialAdditionalHours * revenuePerHour
    | Role.BCBA =>
      if profitMargin < 60 then payrollCost / (1 - 60 / 100) else revenue
  { name := employeeName
    payrollName := (findOriginalPayrollName employeeName allPayroll).getD employeeName
    billingName := employeeName
    utilizationRate := utilizationRate
    billableHours := billableHours
    payrollHours := payrollHours
    nonBillableHours := nonBillableHours
    revenue := revenue
    payrollCost := payrollCost
    revenuePerHour := revenuePerHour
    profitMargin := profitMargin
    isMatched := !billingRecords.isEmpty && !payrollRecords.isEmpty
    performanceTier := performanceTier
    potentialRevenue := potentialRevenue
    isHRStaff := isHRStaff employeeName
    role := role
    department := (payrollRecords.head?).bind (·.department) }

/-- Stable insertion into a revenue-descending list. -/
def insertByRevenue (x : EmployeeMetric) : List EmployeeMetric → List EmployeeMetric
  | [] => [x]
  | y :: t => if y.revenue < x.revenue then x :: y :: t else y :: insertByRevenue x t

/-- Stable sort by revenue descending (the source's
`sort((a, b) => b.revenue - a.revenue)`, which V8 runs stably). -/
def sortByRevenue (l : List EmployeeMetric) : List EmployeeMetric :=
  l.foldr insertByRevenue []

/-- Embeds `analyzeEmployeePerformance`: group both sources by mapped names,
take the ordered union of employees, build a metric per employee, and sort
by revenue descending. -/
def analyzeEmployeePerformance (billingData : ProcessedBillingData)
    (payrollData : ProcessedPayrollData) : List EmployeeMetric :=
  let billingByEmployee := groupBillingByEmployee billingData.records
  let payrollByEmployee := groupPayrollByEmployee payrollData.records
  let allEmployees :=
    orderedUnion (billingByEmployee.map (·.1)) (payrollByEmployee.map (·.1))
  sortByRevenue (allEmployees.map fun employeeName =>
    mkEmployeeMetric (lookupGroup billingByEmployee employeeName)
      (lookupGroup payrollByEmployee employeeName) payrollData.records employeeName)

/-! ## Fuzzy employee matching (source: `constants/employeeMapping.ts`) -/

/-- One fuzzy-match candidate. -/
structure FuzzyMatch where
  name : String
  confidence : ℚ
  reason : String
deriving DecidableEq, Repr

/-- Result bundle of `findEmployeeMatches`. -/
structure EmployeeMappingResult where
  exactMatch : Option String
  fuzzyMatches : List FuzzyMatch
  confidence : ℚ
  shouldAutoMatch : Bool
deriving DecidableEq, Repr

/-- One row update of the Levenshtein dynamic program: `prev` is the
previous matrix row, `leftNew` the entry just computed in the new row. -/
def levBuildRow (yc : Char) : List Char → List Nat → Nat → List Nat
  | [], _, _ => []
  | xc :: xs, prev, leftNew =>
    match prev with
    | [] => []
    | pPrev :: pRest =>
      let pi := pRest.headD 0
      let cost := if xc = yc then 0 else 1
      let ni := min (min (leftNew + 1) (pi + 1)) (pPrev + cost)
      ni :: levBuildRow yc xs pRest ni

/-- Embeds `levenshteinDistance` (the matrix dynamic program, row by row). -/
def levenshteinDistance (a b : List Char) : Nat :=
  (b.foldl
    (fun prev yc =>
      let first := prev.headD 0 + 1
      first :: levBuildRow yc a prev first)
    (List.range (a.length + 1))).getLastD 0

/-- Embeds `calculateNameSimilarity`: 0 for an empty side, 100 for equal
normalizations, else the rounded scaled Levenshtein similarity. -/
def calculateNameSimilarity (name1 name2 : String) : ℚ :=
  if name1 = "" ∨ name2 = "" then 0
  else
    let norm1 := normalizeName name1
    let norm2 := normalizeName name2
    if norm1 = norm2 then 100
    else
      let maxLength := max norm1.data.length norm2.data.length
      if maxLength = 0 then 0
      else
        let distance := levenshteinDistance norm1.data norm2.data
        jsRound ((1 - (distance : ℚ) / (maxLength : ℚ)) * 100)

/-- First, last and middle components of a display name. -/
structure NameParts where
  first : String
  last : String
  middle : Option String
deriving DecidableEq, Repr

/-- JS `join(sep)` on a list of character lists. -/
def joinWithChar (sep : Char) : List (List Char) → List Char
  | [] => []
  | [x] => x
  | x :: xs => x ++ sep :: joinWithChar sep xs

/-- Embeds `extractNameParts`: `"Last, First Middle"` when a comma is
present, otherwise `"First [Middle ...] Last"`. -/
def extractNameParts (fullName : String) : NameParts :=
  let normalized := normalizeName fullName
  if normalized.data.contains ',' then
    let parts := (splitOnChar ',' normalized.data).map jsTrim
    let last : List Char := parts.headD []
    let rest : List Char := (parts.drop 1).headD []
    let nameParts := (splitOnChar ' ' rest).filter (¬ ·.isEmpty)
    { first := ⟨nameParts.headD []⟩
      last := ⟨last⟩
      middle :=
        let m := joinWithChar ' ' (nameParts.drop 1)
        if m.isEmpty then none else some ⟨m⟩ }
  else
    let nameParts := (splitOnChar ' ' normalized.data).filter (¬ ·.isEmpty)
    match nameParts with
    | [] => { first := "", last := "", middle := none }
    | [p] => { first := ⟨p⟩, last := "", middle := none }
    | [p, q] => { first := ⟨p⟩, last := ⟨q⟩, middle := none }
    | p :: rest =>
      { first := ⟨p⟩
        last := ⟨rest.getLastD []⟩
        middle :=
          let m := joinWithChar ' ' rest.dropLast
          if m.isEmpty then none else some ⟨m⟩ }

/-- The composite confidence/reason cascade computed per candidate inside
`findEmployeeMatches`. -/
def candidateScore (targetName : String) (targetParts : NameParts)
    (candidateName : String) : ℚ × String :=
  let candidateParts := extractNameParts candidateName
  let fullNameSimilarity := calculateNameSimilarity targetName candidateName
  let lastNameSimilarity := calculateNameSimilarity targetParts.last candidateParts.last
  let firstNameSimilarity := calculateNameSimilarity targetParts.first candidateParts.first
  let exactLastMatch : Bool :=
    normalizeName targetParts.last == normalizeName candidateParts.last
  let firstInitialMatch : Bool :=
    match targetParts.first.data.head?, candidateParts.first.data.head? with
    | some a, some b => lowerChar a == lowerChar b
    | none, none => true
    | _, _ => false
  if exactLastMatch && firstInitialMatch then
    (max 85 ((lastNameSimilarity + firstNameSimilarity) / 2),
     "Exact last name + first initial match")
  else if exactLastMatch then
    (max 75 lastNameSimilarity, "Exact last name match")
  else if 90 ≤ fullNameSimilarity then
    (fullNameSimilarity, "High full name similarity")
  else if 80 ≤ lastNameSimilarity ∧ 60 ≤ firstNameSimilarity then
    (lastNameSimilarity * (7/10) + firstNameSimilarity * (3/10),
     "Strong last name + partial first name match")
  else
    (fullNameSimilarity, "General name similarity")

/-- The list of fuzzy candidates clearing the threshold, in candidate
order (before sorting). -/
def fuzzyCandidates (targetName : String) (candidateNames : List String)
    (threshold : ℚ) : List FuzzyMatch :=
  let targetParts := extractNameParts targetName
  (candidateNames.map fun candidateName =>
    let sc := candidateScore targetName targetParts candidateName
    (candidateName, sc.1, sc.2)).filterMap fun t =>
      if threshold ≤ t.2.1 then
        some { name := t.1, confidence := jsRound t.2.1, reason := t.2.2 }
      else none

/-- Stable insertion into a confidence-descending list. -/
def insertByConfidence (x : FuzzyMatch) : List FuzzyMatch → List FuzzyMatch
  | [] => [x]
  | y :: t => if y.confidence < x.confidence then x :: y :: t else y :: insertByConfidence x t

/-- Stable sort by confidence descending. -/
def sortByConfidence (l : List FuzzyMatch) : List FuzzyMatch :=
  l.foldr insertByConfidence []

/-- The top candidate's confidence, 0 when no candidate cleared the
threshold (`topMatch?.confidence || 0`). -/
def topConfidence (l : List FuzzyMatch) : ℚ :=
  match l.head? with
  | some m => m.confidence
  | none => 0

/-- Assembles the fuzzy-path result of `findEmployeeMatches`:
auto-match only when the top confidence is at least 95 and exactly one
candidate cleared the threshold. -/
def mkFuzzyResult (l : List FuzzyMatch) : EmployeeMappingResult :=
  { exactMatch := none
    fuzzyMatches := l
    confidence := topConfidence l
    shouldAutoMatch := decide (95 ≤ topConfidence l) && decide (l.length = 1) }

/-- Embeds `findEmployeeMatches`: a name the exact-mapping table changes is
returned immediately with confidence 100; otherwise the fuzzy cascade runs
over the candidates. -/
def findEmployeeMatches (targetName : String) (candidateNames : List String)
    (threshold : ℚ) : EmployeeMappingResult :=
  let exactMatch := applyExactMapping targetName
  if exactMatch ≠ targetName then
    { exactMatch := some exactMatch
      fuzzyMatches := []
      confidence := 100
      shouldAutoMatch := true }
  else
    mkFuzzyResult (sortByConfidence (fuzzyCandidates targetName candidateNames threshold))

/-! ## Concrete datasets used by witnesses and counterexamples -/

/-- The single-employee scenario of the repository's test suite: 100 billed
hours at 5000 revenue against 120 payroll hours at 3000 cost. -/
def singleBilling : ProcessedBillingData :=
  { records := [{ techName := "Smith, John", sessionDate := "2025-04-15",
                  code := 123, hours := 100, price := 5000 }],
    totalRevenue := 5000 }

/-- Payroll side of the single-employee scenario. -/
def singlePayroll : ProcessedPayrollData :=
  { records := [{ name := "Smith, John", checkDate := "2025-04-25",
                  hours := 120, totalExpenses := "3000", department := some "Therapy" }],
    totalPayrollCost := 3000 }

/-- The first employee metric of the single-employee scenario. -/
def singleMetric : EmployeeMetric :=
  (analyzeEmployeePerformance singleBilling singlePayroll).headD default

/-- The over-100%-utilization scenario of the test suite: 120 billed hours
against 100 payroll hours. -/
def overBilling : ProcessedBillingData :=
  { records := [{ techName := "Over, Achiever", sessionDate := "2025-04-15",
                  code := 123, hours := 120, price := 6000 }],
    totalRevenue := 6000 }

/-- Payroll side of the over-utilization scenario. -/
def overPayroll : ProcessedPayrollData :=
  { records := [{ name := "Over, Achiever", checkDate := "2025-04-25",
                  hours := 100, totalExpenses := "3125", department := some "Therapy" }],
    totalPayrollCost := 3125 }

/-- A billing row with an out-of-window session date. -/
def oowRow : BillingRecord :=
  { techName := "Old, Row", sessionDate := "2024-01-01",
    code := 123, hours := 10, price := 100 }

/-- A billing dataset whose only row has an out-of-window session date. -/
def oowBilling : ProcessedBillingData :=
  { records := [oowRow], totalRevenue := 100 }

/-- An empty payroll dataset. -/
def emptyPayroll : ProcessedPayrollData := { records := [], totalPayrollCost := 0 }

/-- The first employee metric of the out-of-window scenario. -/
def oowMetric : EmployeeMetric :=
  (analyzeEmployeePerformance oowBilling emptyPayroll).headD default

/-! ## Canonical-shape predicates for `normalizeName` outputs -/

/-- Whether a list starts with a non-whitespace character (or is empty). -/
def headNonWs : List Char → Bool
  | [] => true
  | c :: _ => !jsWsChar c

/-- Every whitespace character is a single `' '` not followed by further
whitespace: the shape `wsCollapse` outputs. -/
def wellSpaced : List Char → Bool
  | [] => true
  | c :: rest => (!jsWsChar c || (c = ' ' && headNonWs rest)) && wellSpaced rest

/-- Every comma is followed by exactly one space and then a non-whitespace
character: the shape `commaSpace` outputs. -/
def commaOK : List Char → Bool
  | [] => true
  | c :: rest =>
    if c = ',' then
      match rest with
      | [] => false
      | e :: r => if e = ' ' then headNonWs r && commaOK r else false
    else commaOK rest

/-! ## Supporting lemmas -/

theorem headD_mem {α : Type} {l : List α} (d : α) (h : l ≠ []) : l.headD d ∈ l := by
  cases l with
  | nil => exact absurd rfl h
  | cons a t => exact List.mem_cons_self a t

theorem mem_insertByRevenue {x y : EmployeeMetric} {l : List EmployeeMetric} :
    y ∈ insertByRevenue x l ↔ y = x ∨ y ∈ l := by
  induction l with
  | nil => simp [insertByRevenue]
  | cons a t ih =>
    simp only [insertByRevenue]
    split
    · simp [List.mem_cons]
    · simp only [List.mem_cons, ih]
      tauto

theorem mem_sortByRevenue {y : EmployeeMetric} {l : List EmployeeMetric} :
    y ∈ sortByRevenue l ↔ y ∈ l := by
  induction l with
  | nil => simp [sortByRevenue]
  | cons a t ih =>
    simp only [sortByRevenue, List.foldr_cons] at ih ⊢
    rw [mem_insertByRevenue, ih, List.mem_cons]

theorem lookupGroup_nil {α : Type} (k : String) :
    lookupGroup ([] : List (String × List α)) k = [] := rfl

theorem lookupGroup_cons {α : Type} (pk : String) (pv : List α)
    (t : List (String × List α)) (k : String) :
    lookupGroup ((pk, pv) :: t) k = if pk = k then pv else lookupGroup t k := by
  by_cases h : pk = k <;> simp [lookupGroup, List.find?, h]

theorem lookupGroup_addToGroup {α : Type} (g : List (String × List α)) (k' k : String)
    (r : α) :
    lookupGroup (addToGroup g k' r) k =
      if k' = k then lookupGroup g k ++ [r] else lookupGroup g k := by
  induction g with
  | nil =>
    rw [show addToGroup ([] : List (String × List α)) k' r = [(k', [r])] from rfl,
      lookupGroup_cons, lookupGroup_nil]
    by_cases h : k' = k <;> simp [h]
  | cons p t ih =>
    obtain ⟨pk, pv⟩ := p
    simp only [addToGroup]
    by_cases hpk : pk = k'
    · subst hpk
      rw [if_pos rfl, lookupGroup_cons, lookupGroup_cons]
      by_cases hk : pk = k
      · rw [if_pos hk, if_pos hk, if_pos hk]
      · rw [if_neg hk, if_neg hk, if_neg hk]
    · rw [if_neg hpk, lookupGroup_cons, lookupGroup_cons, ih]
      by_cases hk : pk = k
      · have hk' : ¬k' = k := fun h => hpk (hk.trans h.symm)
        rw [if_pos hk, if_pos hk, if_neg hk']
      · rw [if_neg hk, if_neg hk]

theorem lookupGroup_groupRecords {α : Type} (key : α → String) (l : List α)
    (k : String) :
    lookupGroup (groupRecords key l) k = l.filter fun r => key r == k := by
  suffices h : ∀ acc : List (String × List α),
      lookupGroup (l.foldl (fun acc r => addToGroup acc (key r) r) acc) k =
        lookupGroup acc k ++ l.filter (fun r => key r == k) by
    have := h []
    simpa [groupRecords, lookupGroup_nil] using this
  induction l with
  | nil => simp
  | cons a t ih =>
    intro acc
    simp only [List.foldl_cons, List.filter_cons]
    rw [ih (addToGroup acc (key a) a), lookupGroup_addToGroup]
    by_cases h : key a = k
    · simp [h, List.append_assoc]
    · simp [h, beq_iff_eq]

theorem mem_analyzeEmployeePerformance {b : ProcessedBillingData}
    {p : ProcessedPayrollData} {m : EmployeeMetric}
    (h : m ∈ analyzeEmployeePerformance b p) :
    ∃ n, m = mkEmployeeMetric (lookupGroup (groupBillingByEmployee b.records) n)
      (lookupGroup (groupPayrollByEmployee p.records) n) p.records n := by
  simp only [analyzeEmployeePerformance, mem_sortByRevenue, List.mem_map] at h
  obtain ⟨n, _, hn⟩ := h
  exact ⟨n, hn.symm⟩

theorem mkEmployeeMetric_proj (bg : List BillingRecord) (pg : List PayrollRecord)
    (ap : List PayrollRecord) (n : String) :
    (mkEmployeeMetric bg pg ap n).name = n ∧
    (mkEmployeeMetric bg pg ap n).billableHours = sumBy (·.hours) bg ∧
    (mkEmployeeMetric bg pg ap n).revenue = sumBy (·.price) bg ∧
    (mkEmployeeMetric bg pg ap n).payrollHours = sumBy (·.hours) pg ∧
    (mkEmployeeMetric bg pg ap n).payrollCost =
      sumBy (fun r => parseAccountingNumber r.totalExpenses) pg ∧
    (mkEmployeeMetric bg pg ap n).nonBillableHours =
      max 0 ((mkEmployeeMetric bg pg ap n).payrollHours -
        (mkEmployeeMetric bg pg ap n).billableHours) ∧
    (mkEmployeeMetric bg pg ap n).utilizationRate =
      (if 0 < (mkEmployeeMetric bg pg ap n).payrollHours then
        (mkEmployeeMetric bg pg ap n).billableHours /
          (mkEmployeeMetric bg pg ap n).payrollHours * 100
      else 0) ∧
    (mkEmployeeMetric bg pg ap n).profitMargin =
      (if 0 < (mkEmployeeMetric bg pg ap n).revenue then
        ((mkEmployeeMetric bg pg ap n).revenue -
          (mkEmployeeMetric bg pg ap n).payrollCost) /
          (mkEmployeeMetric bg pg ap n).revenue * 100
      else if 0 < (mkEmployeeMetric bg pg ap n).payrollCost then -100 else 0) :=
  ⟨rfl, rfl, rfl, rfl, rfl, rfl, rfl, rfl⟩

/-- C2: for every record of `analyzeEmployeePerformance`, the profit margin
is `(revenue − payrollCost)/revenue × 100` when revenue is positive, the
sentinel −100 when revenue is zero and cost positive, and 0 when revenue is
zero and cost nonpositive. -/
theorem analyzeEmployeePerformance_profitMargin_cases
    (b : ProcessedBillingData) (p : ProcessedPayrollData) (m : EmployeeMetric)
    (hm : m ∈ analyzeEmployeePerformance b p) :
    (0 < m.revenue → m.profitMargin = (m.revenue - m.payrollCost) / m.revenue * 100) ∧
    (m.revenue = 0 → 0 < m.payrollCost → m.profitMargin = -100) ∧
    (m.revenue = 0 → m.payrollCost ≤ 0 → m.profitMargin = 0) := by
  obtain ⟨n, rfl⟩ := mem_analyzeEmployeePerformance hm
  obtain ⟨-, -, -, -, -, -, -, hpm⟩ :=
    mkEmployeeMetric_proj (lookupGroup (groupBillingByEmployee b.records) n)
      (lookupGroup (groupPayrollByEmployee p.records) n) p.records n
  rw [hpm]
  refine ⟨fun h => ?_, fun h0 hc => ?_, fun h0 hc => ?_⟩
  · rw [if_pos h]
  · rw [if_neg (by rw [h0]; exact lt_irrefl 0), if_pos hc]
  · rw [if_neg (by rw [h0]; exact lt_irrefl 0), if_neg (not_lt.mpr hc)]

/-- Witness for C2 at the single-employee scenario. -/
theorem analyzeEmployeePerformance_profitMargin_cases_witness :
    (0 < singleMetric.revenue →
      singleMetric.profitMargin =
        (singleMetric.revenue - singleMetric.payrollCost) / singleMetric.revenue * 100) ∧
    (singleMetric.revenue = 0 → 0 < singleMetric.payrollCost →
      singleMetric.profitMargin = -100) ∧
    (singleMetric.revenue = 0 → singleMetric.payrollCost ≤ 0 →
      singleMetric.profitMargin = 0) :=
  analyzeEmployeePerformance_profitMargin_cases singleBilling singlePayroll singleMetric
    (headD_mem default (by with_unfolding_all decide))

/-- C5: for every record of `analyzeEmployeePerformance`, the non-billable
hours equal `max(0, payrollHours − billableHours)` and are never negative. -/
theorem analyzeEmployeePerformance_nonBillableHours
    (b : ProcessedBillingData) (p : ProcessedPayrollData) (m : EmployeeMetric)
    (hm : m ∈ analyzeEmployeePerformance b p) :
    m.nonBillableHours = max 0 (m.payrollHours - m.billableHours) ∧
    0 ≤ m.nonBillableHours := by
  obtain ⟨n, rfl⟩ := mem_analyzeEmployeePerformance hm
  obtain ⟨-, -, -, -, -, hnb, -, -⟩ :=
    mkEmployeeMetric_proj (lookupGroup (groupBillingByEmployee b.records) n)
      (lookupGroup (groupPayrollByEmployee p.records) n) p.records n
  exact ⟨hnb, hnb ▸ le_max_left 0 _⟩

/-- Witness for C5 at the single-employee scenario, where billable hours
are 100 and payroll hours 120. -/
theorem analyzeEmployeePerformance_nonBillableHours_witness :
    singleMetric.nonBillableHours =
      max 0 (singleMetric.payrollHours - singleMetric.billableHours) ∧
    0 ≤ singleMetric.nonBillableHours :=
  analyzeEmployeePerformance_nonBillableHours singleBilling singlePayroll singleMetric
    (headD_mem default (by with_unfolding_all decide))

/-- C7: `calculateFinancialMetrics` reports a profit margin of 0 whenever
total revenue is 0, regardless of payroll cost. -/
theorem calculateFinancialMetrics_profitMargin_zero
    (b : ProcessedBillingData) (p : ProcessedPayrollData)
    (h : b.totalRevenue = 0) :
    (calculateFinancialMetrics b p).profitMargin = 0 := by
  have hdef : (calculateFinancialMetrics b p).profitMargin =
      if 0 < b.totalRevenue then
        (b.totalRevenue - p.totalPayrollCost) / b.totalRevenue * 100
      else 0 := rfl
  rw [hdef, h]
  simp

/-- Witness for C7: zero revenue with a large payroll cost still reports a
zero margin. -/
theorem calculateFinancialMetrics_profitMargin_zero_witness :
    (calculateFinancialMetrics { records := [], totalRevenue := 0 }
      { records := [], totalPayrollCost := 123456 }).profitMargin = 0 :=
  calculateFinancialMetrics_profitMargin_zero
    { records := [], totalRevenue := 0 }
    { records := [], totalPayrollCost := 123456 } rfl

/-- C6: utilization rates are the plain ratio times 100 with no upper clamp,
both in aggregate (`calculateFinancialMetrics`, dividing windowed billable
hours by billable-staff payroll hours) and per employee, and are 0 when the
payroll-hours denominator is 0; 120 billable against 100 payroll hours
yields 120%. -/
theorem utilizationRate_unclamped :
    (∀ (b : ProcessedBillingData) (p : ProcessedPayrollData),
      0 < billableStaffHoursOf p →
        (calculateFinancialMetrics b p).utilizationRate =
          calculateTotalBillableHours b / billableStaffHoursOf p * 100) ∧
    (∀ (b : ProcessedBillingData) (p : ProcessedPayrollData),
      billableStaffHoursOf p = 0 →
        (calculateFinancialMetrics b p).utilizationRate = 0) ∧
    (∀ (b : ProcessedBillingData) (p : ProcessedPayrollData) (m : EmployeeMetric),
      m ∈ analyzeEmployeePerformance b p →
        (0 < m.payrollHours →
          m.utilizationRate = m.billableHours / m.payrollHours * 100) ∧
        (m.payrollHours = 0 → m.utilizationRate = 0)) ∧
    (calculateFinancialMetrics overBilling overPayroll).utilizationRate = 120 := by
  have hdef : ∀ (b : ProcessedBillingData) (p : ProcessedPayrollData),
      (calculateFinancialMetrics b p).utilizationRate =
        if 0 < billableStaffHoursOf p then
          calculateTotalBillableHours b / billableStaffHoursOf p * 100
        else 0 := fun b p => rfl
  refine ⟨fun b p h => ?_, fun b p h => ?_, fun b p m hm => ?_, ?_⟩
  · rw [hdef, if_pos h]
  · rw [hdef, if_neg (by rw [h]; exact lt_irrefl 0)]
  · obtain ⟨n, rfl⟩ := mem_analyzeEmployeePerformance hm
    obtain ⟨-, -, -, -, -, -, hur, -⟩ :=
      mkEmployeeMetric_proj (lookupGroup (groupBillingByEmployee b.records) n)
        (lookupGroup (groupPayrollByEmployee p.records) n) p.records n
    refine ⟨fun h => ?_, fun h => ?_⟩
    · rw [hur, if_pos h]
    · rw [hur, if_neg (by rw [h]; exact lt_irrefl 0)]
  · with_unfolding_all rfl

/-- Witness for C6: the aggregate conjuncts at the over-utilization and an
empty dataset, and the per-employee conjunct at the single-employee
scenario. -/
theorem utilizationRate_unclamped_witness :
    ((calculateFinancialMetrics overBilling overPayroll).utilizationRate =
      calculateTotalBillableHours overBilling / billableStaffHoursOf overPayroll * 100) ∧
    ((calculateFinancialMetrics overBilling emptyPayroll).utilizationRate = 0) ∧
    ((0 < singleMetric.payrollHours →
      singleMetric.utilizationRate =
        singleMetric.billableHours / singleMetric.payrollHours * 100) ∧
     (singleMetric.payrollHours = 0 → singleMetric.utilizationRate = 0)) :=
  ⟨utilizationRate_unclamped.1 overBilling overPayroll (by with_unfolding_all decide),
   utilizationRate_unclamped.2.1 overBilling emptyPayroll (by with_unfolding_all rfl),
   utilizationRate_unclamped.2.2.1 singleBilling singlePayroll singleMetric
     (headD_mem default (by with_unfolding_all decide))⟩

/-- C1: evaluating `calculateFinancialMetrics` on the test suite's
single-employee scenario.  The utilization rate is 250/3 ≈ 83.33% as the
test expects, but the returned `nonBillableCost` is the hard-coded 0 (the
test asserts 500) and `comprehensiveProfitMargin` is 40 (the test asserts
30): the code contradicts its own test suite on this scenario. -/
theorem calculateFinancialMetrics_singleEmployeeScenario :
    (calculateFinancialMetrics singleBilling singlePayroll).totalRevenue = 5000 ∧
    (calculateFinancialMetrics singleBilling singlePayroll).billableStaffCost = 3000 ∧
    (calculateFinancialMetrics singleBilling singlePayroll).utilizationRate = 250 / 3 ∧
    |(calculateFinancialMetrics singleBilling singlePayroll).utilizationRate -
      8333 / 100| ≤ 1 / 10 ∧
    (calculateFinancialMetrics singleBilling singlePayroll).nonBillableCost = 0 ∧
    (calculateFinancialMetrics singleBilling singlePayroll).comprehensiveProfitMargin
      = 40 := by
  have hu : (calculateFinancialMetrics singleBilling singlePayroll).utilizationRate
      = 250 / 3 := by with_unfolding_all rfl
  refine ⟨by with_unfolding_all rfl, by with_unfolding_all rfl, hu, ?_,
    by with_unfolding_all rfl, by with_unfolding_all rfl⟩
  rw [hu]
  rw [abs_le]
  constructor <;> norm_num

theorem sumBy_append {α : Type} (f : α → ℚ) (l1 l2 : List α) :
    sumBy f (l1 ++ l2) = sumBy f l1 + sumBy f l2 := by
  simp [sumBy]

/-- C3 (amended): billing aggregation groups by the exact-mapped technician
name and sums hours and billed amounts per employee over ALL billing rows —
the per-employee path of `analyzeEmployeePerformance` applies no session-date
filter — while the aggregate `calculateTotalBillableHours` ignores every row
whose session date fails to parse or falls outside the window
2025-03-30 .. 2025-06-29. -/
theorem billingAggregation_amended :
    (∀ (b : ProcessedBillingData) (p : ProcessedPayrollData) (m : EmployeeMetric),
      m ∈ analyzeEmployeePerformance b p →
        m.billableHours =
          sumBy (·.hours)
            (b.records.filter fun r => applyExactMapping r.techName == m.name) ∧
        m.revenue =
          sumBy (·.price)
            (b.records.filter fun r => applyExactMapping r.techName == m.name)) ∧
    (∀ (b : ProcessedBillingData) (r : BillingRecord),
      (∀ d, parseFlexibleDate r.sessionDate = some d →
        ¬(dateLiteralMs 2025 3 30 ≤ d ∧ d ≤ dateLiteralMs 2025 6 29)) →
      calculateTotalBillableHours
        { records := b.records ++ [r], totalRevenue := b.totalRevenue } =
        calculateTotalBillableHours b) := by
  constructor
  · intro b p m hm
    obtain ⟨n, rfl⟩ := mem_analyzeEmployeePerformance hm
    have hname : (mkEmployeeMetric (lookupGroup (groupBillingByEmployee b.records) n)
        (lookupGroup (groupPayrollByEmployee p.records) n) p.records n).name = n := rfl
    obtain ⟨-, hbh, hrev, -, -, -, -, -⟩ :=
      mkEmployeeMetric_proj (lookupGroup (groupBillingByEmployee b.records) n)
        (lookupGroup (groupPayrollByEmployee p.records) n) p.records n
    rw [hname, hbh, hrev, groupBillingByEmployee, lookupGroup_groupRecords]
    exact ⟨rfl, rfl⟩
  · intro b r hout
    simp only [calculateTotalBillableHours, List.filter_append]
    have hr : (List.filter
        (fun r =>
          match parseFlexibleDate r.sessionDate with
          | none => false
          | some d => decide (dateLiteralMs 2025 3 30 ≤ d ∧ d ≤ dateLiteralMs 2025 6 29))
        [r]) = [] := by
      simp only [List.filter, List.filter_nil]
      cases hparse : parseFlexibleDate r.sessionDate with
      | none => simp
      | some d => simp [decide_eq_false (hout d hparse)]
    rw [hr, List.append_nil]

/-- Counterexample to C3 as stated: the lone billing row is dated
2024-01-01, far outside the Q2 billing window, yet the employee's
`billableHours` is 10 and `revenue` is 100 — the out-of-window row
contributed fully to the per-employee sums. -/
theorem billingAggregation_counterexample :
    parseFlexibleDate "2024-01-01" = some (dateLiteralMs 2024 1 1) ∧
    ¬(dateLiteralMs 2025 3 30 ≤ dateLiteralMs 2024 1 1) ∧
    oowMetric.name = "Old, Row" ∧
    oowMetric.billableHours = 10 ∧
    oowMetric.revenue = 100 :=
  ⟨by with_unfolding_all rfl, by with_unfolding_all decide,
   by with_unfolding_all rfl, by with_unfolding_all rfl, by with_unfolding_all rfl⟩

/-- Witness for the amended C3 at the out-of-window scenario. -/
theorem billingAggregation_amended_witness :
    (oowMetric.billableHours =
      sumBy (·.hours)
        (oowBilling.records.filter fun r => applyExactMapping r.techName == oowMetric.name) ∧
     oowMetric.revenue =
      sumBy (·.price)
        (oowBilling.records.filter fun r => applyExactMapping r.techName == oowMetric.name)) ∧
    calculateTotalBillableHours
      { records := oowBilling.records ++ [oowRow],
        totalRevenue := oowBilling.totalRevenue } =
      calculateTotalBillableHours oowBilling :=
  ⟨billingAggregation_amended.1 oowBilling emptyPayroll oowMetric
      (headD_mem default (by with_unfolding_all decide)),
   billingAggregation_amended.2 oowBilling oowRow
     (by
       intro d hd
       have : d = dateLiteralMs 2024 1 1 := by
         have h0 : parseFlexibleDate "2024-01-01" = some (dateLiteralMs 2024 1 1) := by
           with_unfolding_all rfl
         have hd2 : parseFlexibleDate "2024-01-01" = some d := hd
         rw [h0] at hd2
         exact (Option.some_injective _ hd2).symm
       rw [this]
       intro hcontra
       exact absurd hcontra.1 (by with_unfolding_all decide))⟩

/-- C4: a target name the exact-mapping table covers short-circuits
`findEmployeeMatches` with the mapped name, confidence 100, auto-match and
no fuzzy candidates; for any unmapped target the auto-match flag holds
exactly when the top confidence is at least 95 and exactly one candidate
cleared the threshold. -/
theorem findEmployeeMatches_spec :
    (∀ n ∈ EMPLOYEE_NAME_MAPPING.map Prod.fst, ∀ (cands : List String) (thr : ℚ),
      findEmployeeMatches n cands thr =
        { exactMatch := some (applyExactMapping n), fuzzyMatches := [],
          confidence := 100, shouldAutoMatch := true }) ∧
    (∀ (t : String) (cands : List String) (thr : ℚ), applyExactMapping t = t →
      ((findEmployeeMatches t cands thr).shouldAutoMatch = true ↔
        95 ≤ (findEmployeeMatches t cands thr).confidence ∧
        (findEmployeeMatches t cands thr).fuzzyMatches.length = 1)) := by
  constructor
  · intro n hn cands thr
    have hne : applyExactMapping n ≠ n := by fin_cases hn <;> decide
    simp only [findEmployeeMatches]
    rw [if_pos hne]
  · intro t cands thr h
    simp only [findEmployeeMatches]
    rw [if_neg fun hne => hne h]
    simp [mkFuzzyResult, Bool.and_eq_true, decide_eq_true_eq]

/-- Witness for C4: the mapped payroll name and an unmapped name. -/
theorem findEmployeeMatches_spec_witness :
    findEmployeeMatches "Mihai, Bryan" [] 70 =
      { exactMatch := some (applyExactMapping "Mihai, Bryan"), fuzzyMatches := [],
        confidence := 100, shouldAutoMatch := true } ∧
    ((findEmployeeMatches "Smith, Jon" ["Smith, John"] 70).shouldAutoMatch = true ↔
      95 ≤ (findEmployeeMatches "Smith, Jon" ["Smith, John"] 70).confidence ∧
      (findEmployeeMatches "Smith, Jon" ["Smith, John"] 70).fuzzyMatches.length = 1) :=
  ⟨findEmployeeMatches_spec.1 "Mihai, Bryan" (by decide) [] 70,
   findEmployeeMatches_spec.2 "Smith, Jon" ["Smith, John"] 70 (by decide)⟩

theorem parseAccountingNumber_neg_branch (q : ℚ) :
    (if -q = 0 then (0 : ℚ) else -q) = -q := by
  by_cases hq : -q = 0
  · rw [if_pos hq, hq]
  · rw [if_neg hq]

/-- C8: `parseAccountingNumber` is total (the embedding returns a rational
for every string); a parenthesized cell such as `(1,683.94)` yields exactly
−1683.94; a parenthesized numeric cell yields the negated comma-stripped
parse; a leading minus yields the negated parse (negative whenever the body
is positive); and content whose comma-stripped body fails to parse yields
0, in the parenthesized branch and in the plain branch alike. -/
theorem parseAccountingNumber_spec :
    parseAccountingNumber "(1,683.94)" = -(168394 / 100) ∧
    (∀ (s : String) (q : ℚ),
      (jsTrimStr s).data.take 1 = ['('] →
      (jsTrimStr s).data.getLast? = some ')' →
      jsParseFloat (stripCommas ⟨((jsTrimStr s).data.drop 1).dropLast⟩) = some q →
      parseAccountingNumber s = -q) ∧
    (∀ (s : String) (q : ℚ),
      (jsTrimStr s).data.take 1 = ['-'] →
      jsParseFloat (stripCommas ⟨(jsTrimStr s).data.drop 1⟩) = some q →
      parseAccountingNumber s = -q ∧ (0 < q → parseAccountingNumber s < 0)) ∧
    (∀ s : String,
      (jsTrimStr s).data.take 1 = ['('] →
      (jsTrimStr s).data.getLast? = some ')' →
      jsParseFloat (stripCommas ⟨((jsTrimStr s).data.drop 1).dropLast⟩) = none →
      parseAccountingNumber s = 0) ∧
    (∀ s : String, s ≠ "" →
      (jsTrimStr s).data.take 1 ≠ ['('] →
      (jsTrimStr s).data.take 1 ≠ ['-'] →
      jsParseFloat (stripCommas (jsTrimStr s)) = none →
      parseAccountingNumber s = 0) := by
  have hempty : ∀ s : String, s = "" → (jsTrimStr s).data = [] := by
    intro s hs
    rw [hs]
    rfl
  refine ⟨by with_unfolding_all rfl, fun s q h1 h2 h3 => ?_, fun s q h1 h3 => ?_,
    fun s h1 h2 h3 => ?_, fun s hs h1 h2 h3 => ?_⟩
  · have hs : s ≠ "" := fun hs => by
      rw [hempty s hs] at h1
      exact absurd h1 (by decide)
    simp only [parseAccountingNumber]
    rw [if_neg hs, if_pos ⟨h1, h2⟩, h3]
    exact parseAccountingNumber_neg_branch q
  · have hs : s ≠ "" := fun hs => by
      rw [hempty s hs] at h1
      exact absurd h1 (by decide)
    have hnp : ¬((jsTrimStr s).data.take 1 = ['('] ∧
        (jsTrimStr s).data.getLast? = some ')') := by
      intro hc
      rw [h1] at hc
      exact absurd hc.1 (by decide)
    have heq : parseAccountingNumber s = -q := by
      simp only [parseAccountingNumber]
      rw [if_neg hs, if_neg hnp, if_pos h1, h3]
      exact parseAccountingNumber_neg_branch q
    exact ⟨heq, fun hq => by rw [heq]; exact neg_neg_of_pos hq⟩
  · have hs : s ≠ "" := fun hs => by
      rw [hempty s hs] at h1
      exact absurd h1 (by decide)
    simp only [parseAccountingNumber]
    rw [if_neg hs, if_pos ⟨h1, h2⟩, h3]
  · have hnp : ¬((jsTrimStr s).data.take 1 = ['('] ∧
        (jsTrimStr s).data.getLast? = some ')') := fun hc => h1 hc.1
    simp only [parseAccountingNumber]
    rw [if_neg hs, if_neg hnp, if_neg h2, h3]

/-- Witness for C8: the accounting negative, a plain minus and an
unparsable cell. -/
theorem parseAccountingNumber_spec_witness :
    parseAccountingNumber "(2,000)" = -2000 ∧
    (parseAccountingNumber "-1,234.5" = -(12345 / 10) ∧
      (0 < (12345 : ℚ) / 10 → parseAccountingNumber "-1,234.5" < 0)) ∧
    parseAccountingNumber "(abc)" = 0 ∧
    parseAccountingNumber "abc" = 0 :=
  ⟨parseAccountingNumber_spec.2.1 "(2,000)" 2000 (by decide) (by decide)
      (by with_unfolding_all rfl),
   parseAccountingNumber_spec.2.2.1 "-1,234.5" (12345 / 10) (by decide)
      (by with_unfolding_all rfl),
   parseAccountingNumber_spec.2.2.2.1 "(abc)" (by decide) (by decide)
      (by with_unfolding_all rfl),
   parseAccountingNumber_spec.2.2.2.2 "abc" (by decide) (by decide) (by decide)
      (by with_unfolding_all rfl)⟩

theorem jsTrim_fix {l : List Char} (h : jsTrim l = l) :
    l.dropWhile jsWsChar = l ∧ l.reverse.dropWhile jsWsChar = l.reverse := by
  have hsub1 : l.dropWhile jsWsChar <:+ l := List.dropWhile_suffix _
  have hsub2 : (l.dropWhile jsWsChar).reverse.dropWhile jsWsChar <:+
      (l.dropWhile jsWsChar).reverse := List.dropWhile_suffix _
  simp only [jsTrim] at h
  have hlen := congrArg List.length h
  simp only [List.length_reverse] at hlen
  have hle2 := hsub2.length_le
  simp only [List.length_reverse] at hle2
  have hle1 := hsub1.length_le
  have heq1 : l.dropWhile jsWsChar = l :=
    hsub1.sublist.eq_of_length (by omega)
  refine ⟨heq1, ?_⟩
  have : (l.dropWhile jsWsChar).reverse.dropWhile jsWsChar =
      (l.dropWhile jsWsChar).reverse :=
    hsub2.sublist.eq_of_length (by simp only [List.length_reverse]; omega)
  rw [heq1] at this
  exact this

theorem dropWhile_cons_of_neg {p : Char → Bool} {a : Char} {t : List Char}
    (h : ¬p a = true) : (a :: t).dropWhile p = a :: t := by
  simp [List.dropWhile_cons, h]

theorem head_not_ws_of_fix {a : Char} {t : List Char}
    (h : (a :: t).dropWhile jsWsChar = a :: t) : ¬jsWsChar a = true := by
  intro hp
  rw [List.dropWhile_cons, if_pos hp] at h
  have := congrArg List.length h
  have hle := (List.dropWhile_suffix (l := t) jsWsChar).length_le
  simp at this
  omega

theorem cleanAux_nil (acc : List Char) : cleanAux acc [] = acc.reverse := rfl

theorem cleanAux_cons (acc : List Char) (c : Char) (rest : List Char) :
    cleanAux acc (c :: rest) =
      if c = '-' ∧ hyphenMatch rest then (acc.dropWhile jsWsChar).reverse
      else cleanAux (c :: acc) rest := rfl

theorem cleanAux_no_hyphen (l : List Char) (acc : List Char)
    (h : ∀ c ∈ l, c ≠ '-') : cleanAux acc l = acc.reverse ++ l := by
  induction l generalizing acc with
  | nil => simp [cleanAux_nil]
  | cons c rest ih =>
    rw [cleanAux_cons, if_neg fun hc => h c (List.mem_cons_self c rest) hc.1]
    rw [ih (c :: acc) fun x hx => h x (List.mem_cons_of_mem c hx)]
    simp

theorem cleanAux_append_suffix (l : List Char) (acc : List Char) (w : List Char)
    (h : ∀ c ∈ l, c ≠ '-') (hw : hyphenMatch (' ' :: w) = true) :
    cleanAux acc (l ++ ' ' :: '-' :: ' ' :: w) =
      ((' ' :: l.reverse ++ acc).dropWhile jsWsChar).reverse := by
  induction l generalizing acc with
  | nil =>
    show cleanAux acc (' ' :: '-' :: ' ' :: w) =
      ((' ' :: ([] : List Char).reverse ++ acc).dropWhile jsWsChar).reverse
    rw [cleanAux_cons, if_neg (by intro hc; exact absurd hc.1 (by decide))]
    rw [cleanAux_cons, if_pos ⟨rfl, hw⟩]
    simp
  | cons c rest ih =>
    show cleanAux acc (c :: (rest ++ ' ' :: '-' :: ' ' :: w)) = _
    rw [cleanAux_cons, if_neg fun hc => h c (List.mem_cons_self c rest) hc.1]
    exact (ih (c :: acc) fun x hx => h x (List.mem_cons_of_mem c hx)).trans
      (by simp [List.reverse_cons, List.append_assoc])

theorem cleanDateStr_no_hyphen {s : String} (ht : jsTrimStr s = s)
    (hh : ∀ c ∈ s.data, c ≠ '-') : cleanDateStr s = s := by
  have hdata : jsTrim s.data = s.data := congrArg String.data ht
  show (⟨cleanAux [] (jsTrim s.data)⟩ : String) = s
  rw [hdata, cleanAux_no_hyphen s.data [] hh]
  show (⟨s.data⟩ : String) = s
  rfl

theorem string_ne_empty_of_data_cons {s : String} {a : Char} {t : List Char}
    (h : s.data = a :: t) : s ≠ "" := by
  intro he
  rw [he] at h
  exact absurd h (by simp [String.data])

theorem data_cons_of_ne_empty {s : String} (hs : s ≠ "") :
    ∃ a t, s.data = a :: t := by
  cases hsd : s.data with
  | nil =>
    exact absurd (by apply String.ext; rw [hsd]) hs
  | cons a t => exact ⟨a, t, rfl⟩

theorem parseFlexibleDateGen_strip (pISO pDirect : String → Option ℚ) (s : String)
    (w : List Char) (hs : s ≠ "") (ht : jsTrimStr s = s)
    (hh : ∀ c ∈ s.data, c ≠ '-') (hw : hyphenMatch (' ' :: w) = true)
    (c0 : Char) (wr : List Char) (hwrev : w.reverse = c0 :: wr)
    (hc0 : ¬jsWsChar c0 = true) :
    parseFlexibleDateGen pISO pDirect ⟨s.data ++ ' ' :: '-' :: ' ' :: w⟩ =
      parseFlexibleDateGen pISO pDirect s := by
  have hdata : jsTrim s.data = s.data := congrArg String.data ht
  obtain ⟨hfixL, hfixR⟩ := jsTrim_fix hdata
  obtain ⟨a, t, hat⟩ := data_cons_of_ne_empty hs
  have ha : ¬jsWsChar a = true := head_not_ws_of_fix (hat ▸ hfixL)
  have htrimL : (s.data ++ ' ' :: '-' :: ' ' :: w).dropWhile jsWsChar =
      s.data ++ ' ' :: '-' :: ' ' :: w := by
    rw [hat, List.cons_append]
    exact dropWhile_cons_of_neg ha
  have htrimR : (s.data ++ ' ' :: '-' :: ' ' :: w).reverse.dropWhile jsWsChar =
      (s.data ++ ' ' :: '-' :: ' ' :: w).reverse := by
    rw [List.reverse_append]
    have hsfx : (' ' :: '-' :: ' ' :: w).reverse = c0 :: (wr ++ [' ', '-', ' ']) := by
      simp [List.reverse_cons, hwrev]
    rw [hsfx, List.cons_append]
    exact dropWhile_cons_of_neg hc0
  have htrim : jsTrim (s.data ++ ' ' :: '-' :: ' ' :: w) =
      s.data ++ ' ' :: '-' :: ' ' :: w := by
    show ((((s.data ++ ' ' :: '-' :: ' ' :: w).dropWhile
      jsWsChar).reverse).dropWhile jsWsChar).reverse = _
    rw [htrimL, htrimR, List.reverse_reverse]
  have hcleanX : cleanDateStr ⟨s.data ++ ' ' :: '-' :: ' ' :: w⟩ = s := by
    show (⟨cleanAux [] (jsTrim (s.data ++ ' ' :: '-' :: ' ' :: w))⟩ : String) = s
    rw [htrim, cleanAux_append_suffix s.data [] w hh hw]
    have h1 : (' ' :: s.data.reverse ++ ([] : List Char)).dropWhile jsWsChar =
        s.data.reverse.dropWhile jsWsChar := by
      rw [List.append_nil, List.dropWhile_cons, if_pos (by decide)]
    rw [h1, hfixR, List.reverse_reverse]
  have hcleanS : cleanDateStr s = s := cleanDateStr_no_hyphen ht hh
  have hXne : (⟨s.data ++ ' ' :: '-' :: ' ' :: w⟩ : String) ≠ "" := by
    apply string_ne_empty_of_data_cons (a := a)
      (t := t ++ ' ' :: '-' :: ' ' :: w)
    show s.data ++ ' ' :: '-' :: ' ' :: w = a :: (t ++ ' ' :: '-' :: ' ' :: w)
    rw [hat, List.cons_append]
  simp only [parseFlexibleDateGen]
  rw [if_neg hXne, if_neg hs, hcleanX, hcleanS]

/-- C9: the flexible date parser (parameterized by the two host parsers it
delegates to) returns `none` whenever every attempt fails; it strips a
trailing `" - Prior"` or `" - Void"` annotation before any pattern is
tried; and a date that only the last-resort generic parse produces is
accepted exactly under the guard `2020 < year < 2030`, so its year always
lies within the 2020–2029 band. -/
theorem parseFlexibleDate_spec :
    (∀ (pISO pDirect : String → Option ℚ) (s : String),
      slashParse (cleanDateStr s) = none → isoParse (cleanDateStr s) = none →
      serialParse (cleanDateStr s) = none → pISO (cleanDateStr s) = none →
      (∀ d, pDirect (cleanDateStr s) = some d →
        ¬(2020 < getFullYear d ∧ getFullYear d < 2030)) →
      parseFlexibleDateGen pISO pDirect s = none) ∧
    (∀ (pISO pDirect : String → Option ℚ) (s : String), s ≠ "" →
      jsTrimStr s = s → (∀ c ∈ s.data, c ≠ '-') →
      parseFlexibleDateGen pISO pDirect (s ++ " - Prior") =
        parseFlexibleDateGen pISO pDirect s ∧
      parseFlexibleDateGen pISO pDirect (s ++ " - Void") =
        parseFlexibleDateGen pISO pDirect s) ∧
    (∀ (pISO pDirect : String → Option ℚ) (s : String) (d : ℚ),
      slashParse (cleanDateStr s) = none → isoParse (cleanDateStr s) = none →
      serialParse (cleanDateStr s) = none → pISO (cleanDateStr s) = none →
      parseFlexibleDateGen pISO pDirect s = some d →
      2020 ≤ getFullYear d ∧ getFullYear d ≤ 2029) := by
  refine ⟨fun pISO pDirect s h1 h2 h3 h4 h5 => ?_,
    fun pISO pDirect s hs ht hh => ?_, fun pISO pDirect s d h1 h2 h3 h4 hres => ?_⟩
  · by_cases hs : s = ""
    · simp only [parseFlexibleDateGen]
      rw [if_pos hs]
    · simp only [parseFlexibleDateGen]
      rw [if_neg hs]
      simp only [h1, h2, h3, h4]
      cases hd : pDirect (cleanDateStr s) with
      | none => rfl
      | some d => simp [h5 d hd]
  · constructor
    · have heq : s ++ " - Prior" = ⟨s.data ++ ' ' :: '-' :: ' ' :: "Prior".data⟩ := by
        apply String.ext
        simp
      rw [heq]
      exact parseFlexibleDateGen_strip pISO pDirect s "Prior".data hs ht hh
        (by decide) 'r' ['o', 'i', 'r', 'P'] (by decide) (by decide)
    · have heq : s ++ " - Void" = ⟨s.data ++ ' ' :: '-' :: ' ' :: "Void".data⟩ := by
        apply String.ext
        simp
      rw [heq]
      exact parseFlexibleDateGen_strip pISO pDirect s "Void".data hs ht hh
        (by decide) 'd' ['i', 'o', 'V'] (by decide) (by decide)
  · by_cases hs : s = ""
    · rw [show parseFlexibleDateGen pISO pDirect s = none by
        simp only [parseFlexibleDateGen]; rw [if_pos hs]] at hres
      exact absurd hres (by simp)
    · simp only [parseFlexibleDateGen] at hres
      rw [if_neg hs] at hres
      simp only [h1, h2, h3, h4] at hres
      cases hd : pDirect (cleanDateStr s) with
      | none => rw [hd] at hres; exact absurd hres (by simp)
      | some d' =>
        rw [hd] at hres
        have hres' : (if 2020 < getFullYear d' ∧ getFullYear d' < 2030 then
            some d' else none) = some d := hres
        by_cases hband : 2020 < getFullYear d' ∧ getFullYear d' < 2030
        · rw [if_pos hband] at hres'
          have hdd : d' = d := Option.some_injective _ hres'
          rw [hdd] at hband
          omega
        · rw [if_neg hband] at hres'
          exact absurd hres' (by simp)

/-- Witness for C9: a fully unparsable string maps to `none`; suffix
stripping is invisible on a slash date; the last-resort parse's band guard
is exercised through an oracle that returns 2025-01-01. -/
theorem parseFlexibleDate_spec_witness :
    parseFlexibleDateGen (fun _ => none) (fun _ => none) "garbage" = none ∧
    (parseFlexibleDateGen (fun _ => none) (fun _ => none) ("04/18/2025" ++ " - Prior") =
      parseFlexibleDateGen (fun _ => none) (fun _ => none) "04/18/2025" ∧
     parseFlexibleDateGen (fun _ => none) (fun _ => none) ("04/18/2025" ++ " - Void") =
      parseFlexibleDateGen (fun _ => none) (fun _ => none) "04/18/2025") ∧
    (2020 ≤ getFullYear (dateLiteralMs 2025 1 1) ∧
      getFullYear (dateLiteralMs 2025 1 1) ≤ 2029) :=
  ⟨parseFlexibleDate_spec.1 (fun _ => none) (fun _ => none) "garbage"
      (by with_unfolding_all rfl) (by with_unfolding_all rfl)
      (by with_unfolding_all rfl) rfl (fun d hd => Option.noConfusion hd),
   parseFlexibleDate_spec.2.1 (fun _ => none) (fun _ => none) "04/18/2025"
      (by decide) (by decide) (by decide),
   parseFlexibleDate_spec.2.2 (fun _ => none)
      (fun _ => some (dateLiteralMs 2025 1 1)) "x" (dateLiteralMs 2025 1 1)
      (by with_unfolding_all rfl) (by with_unfolding_all rfl)
      (by with_unfolding_all rfl) rfl (by with_unfolding_all rfl)⟩

theorem charOfNat_toNat {n : Nat} (h : n.isValidChar) : (Char.ofNat n).toNat = n := by
  unfold Char.ofNat
  rw [dif_pos h]
  rfl

theorem lowerChar_toNat {c : Char} (h : 65 ≤ c.toNat ∧ c.toNat ≤ 90) :
    (lowerChar c).toNat = c.toNat + 32 := by
  unfold lowerChar
  rw [if_pos h]
  exact charOfNat_toNat (Or.inl (by omega))

theorem lowerChar_eq_self {c : Char} (h : ¬(65 ≤ c.toNat ∧ c.toNat ≤ 90)) :
    lowerChar c = c := by
  unfold lowerChar
  rw [if_neg h]

theorem lowerChar_idem (c : Char) : lowerChar (lowerChar c) = lowerChar c := by
  by_cases h : 65 ≤ c.toNat ∧ c.toNat ≤ 90
  · have ht := lowerChar_toNat h
    refine lowerChar_eq_self fun hcontra => ?_
    rw [ht] at hcontra
    omega
  · rw [lowerChar_eq_self h]
    exact lowerChar_eq_self h

theorem lowerChar_keep {c : Char}
    (h : (wordChar c || jsWsChar c || c = ',') = true) :
    (wordChar (lowerChar c) || jsWsChar (lowerChar c) || lowerChar c = ',') = true := by
  by_cases hc : 65 ≤ c.toNat ∧ c.toNat ≤ 90
  · have ht := lowerChar_toNat hc
    have hw : wordChar (lowerChar c) = true := by
      simp only [wordChar, ht, Bool.or_eq_true, Bool.and_eq_true, decide_eq_true_eq]
      omega
    simp [hw]
  · rw [lowerChar_eq_self hc]
    exact h

theorem mem_jsTrim {c : Char} {l : List Char} (h : c ∈ jsTrim l) : c ∈ l := by
  simp only [jsTrim, List.mem_reverse] at h
  have h1 := (List.dropWhile_suffix (l := (l.dropWhile jsWsChar).reverse)
    jsWsChar).sublist.subset h
  rw [List.mem_reverse] at h1
  exact (List.dropWhile_suffix jsWsChar).sublist.subset h1

theorem mem_wsCollapseAux {c : Char} :
    ∀ (flag : Bool) (l : List Char), c ∈ wsCollapseAux flag l → c ∈ l ∨ c = ' ' := by
  intro flag l
  induction l generalizing flag with
  | nil => simp [wsCollapseAux]
  | cons d r ih =>
    simp only [wsCollapseAux]
    by_cases hd : jsWsChar d
    · rw [if_pos hd]
      cases flag with
      | true =>
        intro h
        rcases ih true h with h' | h'
        · exact Or.inl (List.mem_cons_of_mem d h')
        · exact Or.inr h'
      | false =>
        intro h
        rcases List.mem_cons.mp h with h' | h'
        · exact Or.inr h'
        · rcases ih true h' with h'' | h''
          · exact Or.inl (List.mem_cons_of_mem d h'')
          · exact Or.inr h''
    · rw [if_neg hd]
      intro h
      rcases List.mem_cons.mp h with h' | h'
      · exact Or.inl (h' ▸ List.mem_cons_self d r)
      · rcases ih false h' with h'' | h''
        · exact Or.inl (List.mem_cons_of_mem d h'')
        · exact Or.inr h''

theorem mem_commaSpaceAux {c : Char} :
    ∀ (flag : Bool) (l : List Char), c ∈ commaSpaceAux flag l → c ∈ l ∨ c = ' ' := by
  intro flag l
  induction l generalizing flag with
  | nil => simp [commaSpaceAux]
  | cons d r ih =>
    simp only [commaSpaceAux]
    by_cases hd : d = ','
    · rw [if_pos hd]
      intro h
      rcases List.mem_cons.mp h with h' | h'
      · refine Or.inl ?_
        rw [h', hd]
        exact List.mem_cons_self ',' r
      · rcases List.mem_cons.mp h' with h'' | h''
        · exact Or.inr h''
        · rcases ih true h'' with h3 | h3
          · exact Or.inl (List.mem_cons_of_mem d h3)
          · exact Or.inr h3
    · rw [if_neg hd]
      by_cases hskip : (flag && jsWsChar d) = true
      · rw [if_pos hskip]
        intro h
        rcases ih true h with h' | h'
        · exact Or.inl (List.mem_cons_of_mem d h')
        · exact Or.inr h'
      · rw [if_neg hskip]
        intro h
        rcases List.mem_cons.mp h with h' | h'
        · exact Or.inl (h' ▸ List.mem_cons_self d r)
        · rcases ih false h' with h'' | h''
          · exact Or.inl (List.mem_cons_of_mem d h'')
          · exact Or.inr h''

theorem mem_normalizeName_chain {c : Char} {s : String}
    (h : c ∈ (normalizeName s).data) :
    c ∈ stripKeep (jsTrim (lowerList s.data)) ∨ c = ' ' := by
  have h1 : c ∈ commaSpaceAux false
      (wsCollapse (stripKeep (jsTrim (lowerList s.data)))) := h
  rcases mem_commaSpaceAux false _ h1 with h2 | h2
  · rcases mem_wsCollapseAux false _ h2 with h3 | h3
    · exact Or.inl h3
    · exact Or.inr h3
  · exact Or.inr h2

theorem headNonWs_wsCollapseAux_true :
    ∀ l : List Char, headNonWs (wsCollapseAux true l) = true := by
  intro l
  induction l with
  | nil => rfl
  | cons d r ih =>
    simp only [wsCollapseAux]
    by_cases hd : jsWsChar d
    · rw [if_pos hd]
      simpa using ih
    · rw [if_neg hd]
      simp [headNonWs, hd]

theorem wellSpaced_wsCollapseAux :
    ∀ (flag : Bool) (l : List Char), wellSpaced (wsCollapseAux flag l) = true := by
  intro flag l
  induction l generalizing flag with
  | nil => rfl
  | cons d r ih =>
    simp only [wsCollapseAux]
    by_cases hd : jsWsChar d
    · rw [if_pos hd]
      cases flag with
      | true =>
        simpa using ih true
      | false =>
        have hstep : (if (false : Bool) then wsCollapseAux true r
            else ' ' :: wsCollapseAux true r) = ' ' :: wsCollapseAux true r := by simp
        rw [hstep]
        simp only [wellSpaced, Bool.and_eq_true]
        refine ⟨?_, ih true⟩
        simp [headNonWs_wsCollapseAux_true r]
    · rw [if_neg hd]
      simp only [wellSpaced, Bool.and_eq_true]
      exact ⟨by simp [hd], ih false⟩

theorem headNonWs_commaSpaceAux_true :
    ∀ l : List Char, headNonWs (commaSpaceAux true l) = true := by
  intro l
  induction l with
  | nil => rfl
  | cons d r ih =>
    simp only [commaSpaceAux]
    by_cases hd : d = ','
    · rw [if_pos hd]
      simp [headNonWs, jsWsChar]
    · rw [if_neg hd]
      by_cases hw : jsWsChar d
      · rw [if_pos (by simp [hw])]
        exact ih
      · rw [if_neg (by simp [hw])]
        simp [headNonWs, hw]

theorem headNonWs_commaSpaceAux_false {l : List Char} (h : headNonWs l = true) :
    headNonWs (commaSpaceAux false l) = true := by
  cases l with
  | nil => rfl
  | cons d r =>
    simp only [headNonWs, Bool.not_eq_true'] at h
    simp only [commaSpaceAux]
    by_cases hd : d = ','
    · rw [if_pos hd]
      simp [headNonWs, jsWsChar]
    · rw [if_neg hd, if_neg (by simp [h])]
      simp [headNonWs, h]

theorem wellSpaced_commaSpaceAux :
    ∀ (flag : Bool) (l : List Char), wellSpaced l = true →
      wellSpaced (commaSpaceAux flag l) = true := by
  intro flag l
  induction l generalizing flag with
  | nil => intro _; rfl
  | cons d r ih =>
    intro hws
    simp only [wellSpaced, Bool.and_eq_true] at hws
    obtain ⟨hg, hr⟩ := hws
    simp only [commaSpaceAux]
    by_cases hd : d = ','
    · rw [if_pos hd]
      simp only [wellSpaced, Bool.and_eq_true]
      refine ⟨by simp [hd, jsWsChar], ?_, ih true hr⟩
      simp [headNonWs_commaSpaceAux_true r, jsWsChar]
    · rw [if_neg hd]
      by_cases hw : jsWsChar d
      · cases flag with
        | true =>
          rw [if_pos (by simp [hw])]
          exact ih true hr
        | false =>
          rw [if_neg (by simp)]
          simp only [wellSpaced, Bool.and_eq_true]
          simp only [hw, Bool.not_true, Bool.false_or, Bool.and_eq_true,
            decide_eq_true_eq] at hg
          refine ⟨?_, ih false hr⟩
          simp only [hw, Bool.not_true, Bool.false_or, Bool.and_eq_true]
          exact ⟨by simp [hg.1], headNonWs_commaSpaceAux_false hg.2⟩
      · rw [if_neg (by simp [hw])]
        simp only [wellSpaced, Bool.and_eq_true]
        exact ⟨by simp [hw], ih false hr⟩

theorem wsCollapseAux_true_eq_false {l : List Char} (h : headNonWs l = true) :
    wsCollapseAux true l = wsCollapseAux false l := by
  cases l with
  | nil => rfl
  | cons d r =>
    simp only [headNonWs, Bool.not_eq_true'] at h
    simp [wsCollapseAux, h]

theorem wsCollapseAux_false_fix :
    ∀ l : List Char, wellSpaced l = true → wsCollapseAux false l = l := by
  intro l
  induction l with
  | nil => intro _; rfl
  | cons d r ih =>
    intro hws
    simp only [wellSpaced, Bool.and_eq_true] at hws
    obtain ⟨hg, hr⟩ := hws
    simp only [wsCollapseAux]
    by_cases hw : jsWsChar d
    · rw [if_pos hw]
      have hstep : (if (false : Bool) then wsCollapseAux true r
          else ' ' :: wsCollapseAux true r) = ' ' :: wsCollapseAux true r := by simp
      rw [hstep]
      simp only [hw, Bool.not_true, Bool.false_or, Bool.and_eq_true,
        decide_eq_true_eq] at hg
      rw [wsCollapseAux_true_eq_false hg.2, ih hr, hg.1]
    · rw [if_neg hw, ih hr]

theorem commaSpaceAux_true_eq_false {l : List Char} (h : headNonWs l = true) :
    commaSpaceAux true l = commaSpaceAux false l := by
  cases l with
  | nil => rfl
  | cons d r =>
    simp only [headNonWs, Bool.not_eq_true'] at h
    by_cases hd : d = ','
    · simp [commaSpaceAux, hd]
    · simp [commaSpaceAux, hd, h]

theorem commaOK_cons_comma (e : Char) (r : List Char) :
    commaOK (',' :: e :: r) =
      if e = ' ' then headNonWs r && commaOK r else false := rfl

theorem commaOK_cons_comma_space (r : List Char) :
    commaOK (',' :: ' ' :: r) = (headNonWs r && commaOK r) := rfl

theorem commaOK_cons_comma_other {e : Char} (r : List Char) (he : ¬e = ' ') :
    commaOK (',' :: e :: r) = false := by
  rw [commaOK_cons_comma, if_neg he]

theorem commaOK_cons_other {d : Char} (r : List Char) (hd : ¬d = ',') :
    commaOK (d :: r) = commaOK r := by
  conv_lhs => rw [commaOK.eq_def]
  show (if d = ',' then
      (match r with
        | [] => false
        | e :: r' => if e = ' ' then headNonWs r' && commaOK r' else false)
    else commaOK r) = commaOK r
  rw [if_neg hd]

theorem commaOK_commaSpaceAux :
    ∀ (flag : Bool) (l : List Char), commaOK (commaSpaceAux flag l) = true := by
  intro flag l
  induction l generalizing flag with
  | nil => rfl
  | cons d r ih =>
    simp only [commaSpaceAux]
    by_cases hd : d = ','
    · rw [if_pos hd, commaOK_cons_comma_space, headNonWs_commaSpaceAux_true r,
        ih true]
      rfl
    · rw [if_neg hd]
      by_cases hskip : (flag && jsWsChar d) = true
      · rw [if_pos hskip]
        exact ih true
      · rw [if_neg hskip, commaOK_cons_other _ hd]
        exact ih false

theorem commaSpaceAux_false_fix (l : List Char) (hok : commaOK l = true) :
    commaSpaceAux false l = l := by
  suffices key : ∀ (n : Nat) (l : List Char), l.length ≤ n → commaOK l = true →
      commaSpaceAux false l = l from key l.length l le_rfl hok
  intro n
  induction n with
  | zero =>
    intro l hl _
    rw [List.eq_nil_of_length_eq_zero (Nat.le_zero.mp hl)]
    rfl
  | succ n ihn =>
    intro l hl hok
    cases l with
    | nil => rfl
    | cons d r =>
      by_cases hd : d = ','
      · subst hd
        cases r with
        | nil => exact absurd hok (by decide)
        | cons e r' =>
          by_cases he : e = ' '
          · subst he
            rw [commaOK_cons_comma_space] at hok
            simp only [Bool.and_eq_true] at hok
            obtain ⟨hh, hok2⟩ := hok
            have e1 : commaSpaceAux false (',' :: ' ' :: r') =
                ',' :: ' ' :: commaSpaceAux true (' ' :: r') := by
              simp [commaSpaceAux]
            have e2 : commaSpaceAux true (' ' :: r') = commaSpaceAux true r' := by
              simp [commaSpaceAux, jsWsChar]
            have e4 : commaSpaceAux false r' = r' := by
              refine ihn r' ?_ hok2
              simp only [List.length_cons] at hl
              omega
            rw [e1, e2, commaSpaceAux_true_eq_false hh, e4]
          · rw [commaOK_cons_comma_other r' he] at hok
            exact absurd hok (by decide)
      · have hok' : commaOK r = true := by
          rw [commaOK_cons_other r hd] at hok
          exact hok
        have e1 : commaSpaceAux false (d :: r) = d :: commaSpaceAux false r := by
          simp [commaSpaceAux, hd]
        rw [e1]
        rw [ihn r (by simp only [List.length_cons] at hl; omega) hok']

theorem lowerList_eq_self :
    ∀ l : List Char, (∀ c ∈ l, lowerChar c = c) → lowerList l = l := by
  intro l
  induction l with
  | nil => intro _; rfl
  | cons c t ih =>
    intro h
    rw [show lowerList (c :: t) = lowerChar c :: lowerList t from rfl,
      h c (List.mem_cons_self c t),
      ih fun x hx => h x (List.mem_cons_of_mem c hx)]

/-- Counterexample to C10 as stated: stripping the `$` exposes a leading
space that the first pass's (already performed) trim no longer removes, so
a second canonicalization shortens the string. -/
theorem normalizeName_not_idempotent :
    normalizeName (normalizeName "$ a") ≠ normalizeName "$ a" := by decide

/-- C10 (amended): canonicalization is idempotent on every input whose
canonical form carries no leading or trailing whitespace; stripping of
special characters is the only step that can expose edge whitespace after
the trim has already run, and a second pass then removes it. -/
theorem normalizeName_idempotent_of_trimmed (s : String)
    (h : jsTrimStr (normalizeName s) = normalizeName s) :
    normalizeName (normalizeName s) = normalizeName s := by
  have hdata : jsTrim (normalizeName s).data = (normalizeName s).data :=
    congrArg String.data h
  have hlower : ∀ c ∈ (normalizeName s).data, lowerChar c = c := by
    intro c hc
    rcases mem_normalizeName_chain hc with h1 | h1
    · have h2 := (List.mem_filter.mp h1).1
      have h3 := mem_jsTrim h2
      obtain ⟨c0, -, hc0⟩ := List.mem_map.mp h3
      rw [← hc0]
      exact lowerChar_idem c0
    · rw [h1]
      decide
  have h1 : lowerList (normalizeName s).data = (normalizeName s).data :=
    lowerList_eq_self _ hlower
  have h3 : stripKeep (normalizeName s).data = (normalizeName s).data := by
    rw [stripKeep, List.filter_eq_self]
    intro c hc
    rcases mem_normalizeName_chain hc with h1 | h1
    · have hk := (List.mem_filter.mp h1).2
      exact hk
    · rw [h1]
      decide
  have h4 : wsCollapse (normalizeName s).data = (normalizeName s).data := by
    have hws1 : wellSpaced
        (wsCollapse (stripKeep (jsTrim (lowerList s.data)))) = true :=
      wellSpaced_wsCollapseAux false _
    have hws : wellSpaced (normalizeName s).data = true :=
      wellSpaced_commaSpaceAux false _ hws1
    exact wsCollapseAux_false_fix _ hws
  have h5 : commaSpace (normalizeName s).data = (normalizeName s).data := by
    have hok : commaOK (normalizeName s).data = true := commaOK_commaSpaceAux false _
    exact commaSpaceAux_false_fix _ hok
  show (⟨commaSpace (wsCollapse (stripKeep
      (jsTrim (lowerList (normalizeName s).data))))⟩ : String) = normalizeName s
  rw [h1, hdata, h3, h4, h5]

/-- Witness for the amended C10: a messy but specially-character-free name
canonicalizes to a fixed point. -/
theorem normalizeName_idempotent_of_trimmed_witness :
    normalizeName (normalizeName "Smith,   JOHN") = normalizeName "Smith,   JOHN" :=
  normalizeName_idempotent_of_trimmed "Smith,   JOHN" (by decide)
